import Mathlib

/-!
# Verification of snowchange.py (phdata/snowchange, v2.2.0)

A shallow embedding of the pure core of `snowchange.py`: version-key parsing
and comparison (`get_alphanum_key`, `sorted_alphanumeric`), change-script
discovery (`get_all_scripts_recursively`), the planning/apply loop inside
`snowchange`, checksum computation (`hashlib.sha224(...).hexdigest()`), and
change-history-table name resolution (`get_change_history_table_details`).

Python strings are modelled as lists of Unicode code points (`List ℕ`);
Python compares strings code-point-wise, so this is exact.  Case mapping
(`str.lower`/`str.upper`/`str.capitalize`) and whitespace stripping
(`str.strip`) are modelled on the ASCII range, which covers every string the
program itself manufactures.  Digit recognition comes in two layers: an
ASCII model (`convert`, `get_alphanum_key`) that is exact for strings
without non-ASCII digit characters, and a full-Unicode model (`convertU`,
`get_alphanum_keyU`, with digit tables generated from the Unicode
character database) that also captures the `ValueError`/`TypeError`
behaviour of `int()` and of mixed-type comparisons on non-ASCII digits.
Effectful parts (file reads, SQL execution, wall-clock timing) are
modelled by an explicit environment record; SQL execution is one opaque
call that either succeeds or fails.
-/

set_option maxRecDepth 10000

/-- Code-point string: the model of a Python `str`. -/
abbrev PyStr := List ℕ

/-- Convert a Lean string literal to its code-point list model. -/
def chars (s : String) : PyStr := s.data.map Char.toNat

/-- Python `c.isdigit()` for a single ASCII character (code point). -/
def isDigitCp (c : ℕ) : Bool := 48 ≤ c && c ≤ 57

/-- ASCII whitespace recognised by Python `str.strip`:
space, tab, newline, carriage return, vertical tab, form feed. -/
def isSpaceCp (c : ℕ) : Bool :=
  c == 32 || c == 9 || c == 10 || c == 13 || c == 11 || c == 12

/-- Python `str.lower` on one code point (ASCII range). -/
def lowerCp (c : ℕ) : ℕ := if 65 ≤ c ∧ c ≤ 90 then c + 32 else c

/-- Python `str.upper` on one code point (ASCII range). -/
def upperCp (c : ℕ) : ℕ := if 97 ≤ c ∧ c ≤ 122 then c - 32 else c

/-- Python `s.lower()` (ASCII range). -/
def pyLower (s : PyStr) : PyStr := s.map lowerCp

/-- Python `s.upper()` (ASCII range). -/
def pyUpper (s : PyStr) : PyStr := s.map upperCp

/-- Python `s.strip()`: drop leading and trailing whitespace. -/
def pyStrip (s : PyStr) : PyStr :=
  ((s.dropWhile isSpaceCp).reverse.dropWhile isSpaceCp).reverse

/-- Python `int(text)` on a string of decimal digits. -/
def digitsToNat (s : PyStr) : ℕ := s.foldl (fun n c => n * 10 + (c - 48)) 0

/-- Python `text.isdigit()` restricted to ASCII digits: non-empty and all
in `0-9`.  Exact for strings without non-ASCII digit characters; the
full-Unicode `pyIsDigitU` below models the general case. -/
def pyIsDigit (s : PyStr) : Bool := !s.isEmpty && s.all isDigitCp

/-!
## Version keys — `get_alphanum_key` (snowchange.py lines 89-96)

`re.split('([0-9]+)', key)` splits a string on maximal digit runs, keeping
the runs: the result alternates (possibly empty) digit-free separator,
non-empty digit run, separator, ..., separator.  `rawSplit` computes this
split directly by structural recursion on the string.
-/

/-- `re.split('([0-9]+)', key)`: alternating separators and digit runs,
starting and ending with a (possibly empty) separator. -/
def rawSplit : PyStr → List PyStr
  | [] => [[]]
  | c :: cs =>
    match rawSplit cs with
    | [] => [[]]
    | s0 :: tail =>
      if isDigitCp c then
        match s0, tail with
        | [], r :: tail2 => [] :: (c :: r) :: tail2
        | _, _ => [] :: [c] :: s0 :: tail
      else
        (c :: s0) :: tail

/-- One element of a Python list mixing `int` and `str` values. -/
inductive PyVal where
  | int (n : ℕ)
  | str (s : PyStr)
deriving DecidableEq

/-- `convert = lambda text: int(text) if text.isdigit() else text.lower()`,
in the ASCII-digit model: exact for strings without non-ASCII digit
characters (see `convertU` and the agreement theorem for the general
case). -/
def convert (s : PyStr) : PyVal :=
  if pyIsDigit s then .int (digitsToNat s) else .str (pyLower s)

/-- `get_alphanum_key` (snowchange.py line 89): split on digit runs and
convert each part. -/
def get_alphanum_key (key : PyStr) : List PyVal :=
  (rawSplit key).map convert

/-!
## Python comparison semantics

Python compares two strings lexicographically by code point, two ints
numerically, and raises `TypeError` when an `int` meets a `str`; lists
compare element-wise with the shorter list (a strict prefix) sorting first.
`none` models the `TypeError` case.
-/

/-- Lexicographic three-way comparison of code-point strings
(Python `str` comparison). -/
def cmpStr : PyStr → PyStr → Ordering
  | [], [] => .eq
  | [], _ :: _ => .lt
  | _ :: _, [] => .gt
  | a :: as, b :: bs =>
    if a < b then .lt else if b < a then .gt else cmpStr as bs

/-- Comparison of two Python values; `none` is a `TypeError`. -/
def pyValCmp : PyVal → PyVal → Option Ordering
  | .int a, .int b => some (compare a b)
  | .str a, .str b => some (cmpStr a b)
  | _, _ => none

/-- Python list comparison, element-wise; `none` is a `TypeError`. -/
def pyListCmp : List PyVal → List PyVal → Option Ordering
  | [], [] => some .eq
  | [], _ :: _ => some .lt
  | _ :: _, [] => some .gt
  | a :: as, b :: bs =>
    match pyValCmp a b with
    | none => none
    | some .eq => pyListCmp as bs
    | some o => some o

/-- Python `x < y` on lists of values (`False` on `TypeError`, which never
occurs for alphanum keys — see the key-shape theorem). -/
def pyLtB (a b : List PyVal) : Bool := decide (pyListCmp a b = some .lt)

/-- Python `x <= y` on lists of values (`False` on `TypeError`). -/
def pyLeB (a b : List PyVal) : Bool :=
  decide (pyListCmp a b = some .lt) || decide (pyListCmp a b = some .eq)

/-- Three-way comparison of two version strings via their alphanum keys:
the comparison `snowchange` uses everywhere. -/
def versionCmp (a b : PyStr) : Option Ordering :=
  pyListCmp (get_alphanum_key a) (get_alphanum_key b)

/-!
## Order lemmas for the comparison functions
-/

theorem cmpStr_self (s : PyStr) : cmpStr s s = .eq := by
  induction s with
  | nil => rfl
  | cons a as ih => simp [cmpStr, ih]

theorem cmpStr_eq_iff {a b : PyStr} : cmpStr a b = .eq ↔ a = b := by
  induction a generalizing b with
  | nil => cases b <;> simp [cmpStr]
  | cons x xs ih =>
    cases b with
    | nil => simp [cmpStr]
    | cons y ys =>
      by_cases hxy : x < y
      · simp [cmpStr, hxy]
        rintro rfl
        omega
      · by_cases hyx : y < x
        · simp [cmpStr, hxy, hyx]
          rintro rfl
          omega
        · have hxy' : x = y := by omega
          subst hxy'
          simp [cmpStr, hxy, hyx, ih]

theorem cmpStr_swap (a b : PyStr) : cmpStr b a = (cmpStr a b).swap := by
  induction a generalizing b with
  | nil => cases b <;> simp [cmpStr, Ordering.swap]
  | cons x xs ih =>
    cases b with
    | nil => simp [cmpStr, Ordering.swap]
    | cons y ys =>
      by_cases hxy : x < y
      · have : ¬ y < x := by omega
        simp [cmpStr, hxy, this, Ordering.swap]
      · by_cases hyx : y < x
        · simp [cmpStr, hxy, hyx, Ordering.swap]
        · simp [cmpStr, hxy, hyx, ih]

theorem cmpStr_lt_trans {a b c : PyStr} (hab : cmpStr a b = .lt)
    (hbc : cmpStr b c = .lt) : cmpStr a c = .lt := by
  induction a generalizing b c with
  | nil =>
    cases b with
    | nil => simp [cmpStr] at hab
    | cons y ys =>
      cases c with
      | nil => simp [cmpStr] at hbc
      | cons z zs => simp [cmpStr]
  | cons x xs ih =>
    cases b with
    | nil => simp [cmpStr] at hab
    | cons y ys =>
      cases c with
      | nil => simp [cmpStr] at hbc
      | cons z zs =>
        simp only [cmpStr] at hab hbc ⊢
        by_cases hxy : x < y
        · by_cases hyz : y < z
          · have hxz : x < z := by omega
            simp [hxz]
          · by_cases hzy : z < y
            · simp [hxy, hyz, hzy] at hbc
            · have : y = z := by omega
              subst this
              simp [hxy]
        · by_cases hyx : y < x
          · simp [hxy, hyx] at hab
          · have : x = y := by omega
            subst this
            simp only [hxy, if_neg, lt_irrefl, if_false] at hab
            by_cases hyz : x < z
            · simp [hyz]
            · by_cases hzy : z < x
              · simp [hyz, hzy] at hbc
              · have : x = z := by omega
                subst this
                simp only [lt_irrefl, if_false] at hbc ⊢
                exact ih hab hbc

theorem pyValCmp_self (v : PyVal) : pyValCmp v v = some .eq := by
  cases v with
  | int n => simp [pyValCmp, Nat.compare_eq_eq]
  | str s => simp [pyValCmp, cmpStr_self]

theorem pyValCmp_eq_iff {v w : PyVal} : pyValCmp v w = some .eq ↔ v = w := by
  cases v <;> cases w <;>
    simp [pyValCmp, Nat.compare_eq_eq, cmpStr_eq_iff]

theorem pyValCmp_swap (v w : PyVal) :
    pyValCmp w v = (pyValCmp v w).map Ordering.swap := by
  cases v with
  | int a =>
    cases w with
    | int b => simpa [pyValCmp] using congrArg some (Nat.compare_swap a b).symm
    | str t => rfl
  | str s =>
    cases w with
    | int b => rfl
    | str t => simpa [pyValCmp] using congrArg some (cmpStr_swap s t)

theorem pyValCmp_lt_trans {u v w : PyVal} (huv : pyValCmp u v = some .lt)
    (hvw : pyValCmp v w = some .lt) : pyValCmp u w = some .lt := by
  cases u with
  | int a =>
    cases v with
    | str t => exact absurd huv (by simp [pyValCmp])
    | int b =>
      cases w with
      | str t => exact absurd hvw (by simp [pyValCmp])
      | int c =>
        simp only [pyValCmp, Option.some.injEq] at huv hvw ⊢
        rw [Nat.compare_eq_lt] at huv hvw ⊢
        omega
  | str s =>
    cases v with
    | int b => exact absurd huv (by simp [pyValCmp])
    | str t =>
      cases w with
      | int c => exact absurd hvw (by simp [pyValCmp])
      | str r =>
        simp only [pyValCmp, Option.some.injEq] at huv hvw ⊢
        exact cmpStr_lt_trans huv hvw

theorem pyListCmp_self (l : List PyVal) : pyListCmp l l = some .eq := by
  induction l with
  | nil => rfl
  | cons v vs ih => simp [pyListCmp, pyValCmp_self, ih]

theorem pyListCmp_eq_iff {a b : List PyVal} :
    pyListCmp a b = some .eq ↔ a = b := by
  induction a generalizing b with
  | nil => cases b <;> simp [pyListCmp]
  | cons v vs ih =>
    cases b with
    | nil => simp [pyListCmp]
    | cons w ws =>
      simp only [pyListCmp]
      cases hvw : pyValCmp v w with
      | none =>
        have : ¬ v = w := by
          rintro rfl
          rw [pyValCmp_self] at hvw
          exact absurd hvw (by simp)
        simp [this]
      | some o =>
        cases o with
        | eq =>
          have : v = w := pyValCmp_eq_iff.1 hvw
          subst this
          simp [ih]
        | lt =>
          have : ¬ v = w := by
            rintro rfl
            rw [pyValCmp_self] at hvw
            exact absurd hvw (by simp)
          simp [this]
        | gt =>
          have : ¬ v = w := by
            rintro rfl
            rw [pyValCmp_self] at hvw
            exact absurd hvw (by simp)
          simp [this]

theorem pyListCmp_swap (a b : List PyVal) :
    pyListCmp b a = (pyListCmp a b).map Ordering.swap := by
  induction a generalizing b with
  | nil => cases b <;> rfl
  | cons v vs ih =>
    cases b with
    | nil => rfl
    | cons w ws =>
      simp only [pyListCmp, pyValCmp_swap v w]
      cases hvw : pyValCmp v w with
      | none => rfl
      | some o => cases o <;> simp [ih, Ordering.swap]

theorem pyListCmp_lt_trans {a b c : List PyVal} (hab : pyListCmp a b = some .lt)
    (hbc : pyListCmp b c = some .lt) : pyListCmp a c = some .lt := by
  induction a generalizing b c with
  | nil =>
    cases b with
    | nil => exact absurd hab (by simp [pyListCmp])
    | cons w ws =>
      cases c with
      | nil => exact absurd hbc (by simp [pyListCmp])
      | cons z zs => simp [pyListCmp]
  | cons v vs ih =>
    cases b with
    | nil => exact absurd hab (by simp [pyListCmp])
    | cons w ws =>
      cases c with
      | nil => exact absurd hbc (by simp [pyListCmp])
      | cons z zs =>
        simp only [pyListCmp] at hab hbc ⊢
        cases hvw : pyValCmp v w with
        | none => rw [hvw] at hab; exact absurd hab (by simp)
        | some o1 =>
          rw [hvw] at hab
          cases hwz : pyValCmp w z with
          | none => rw [hwz] at hbc; exact absurd hbc (by simp)
          | some o2 =>
            rw [hwz] at hbc
            cases o1 with
            | gt => exact absurd hab (by simp)
            | eq =>
              have hv : v = w := pyValCmp_eq_iff.1 hvw
              subst hv
              cases o2 with
              | gt => exact absurd hbc (by simp)
              | lt => rw [hwz]
              | eq =>
                have hw : v = z := pyValCmp_eq_iff.1 hwz
                subst hw
                rw [pyValCmp_self]
                exact ih hab hbc
            | lt =>
              cases o2 with
              | gt => exact absurd hbc (by simp)
              | eq =>
                have hw : w = z := pyValCmp_eq_iff.1 hwz
                subst hw
                rw [hvw]
              | lt => rw [pyValCmp_lt_trans hvw hwz]

/-!
## Shape of alphanum keys (claim C8 machinery)

`re.split('([0-9]+)', key)` alternates digit-free separators and non-empty
digit runs; after `convert`, every key alternates `str` (even indices) and
`int` (odd indices), starting and ending with a `str`.
-/

/-- Shape invariant for the raw `re.split` result: alternating digit-free
separator / non-empty digit run, starting and ending with a separator. -/
inductive RawAlt : List PyStr → Prop
  | single (s : PyStr) (hs : s.all (fun c => !isDigitCp c)) : RawAlt [s]
  | cons (s r : PyStr) (rest : List PyStr)
      (hs : s.all (fun c => !isDigitCp c))
      (hr : r ≠ [] ∧ r.all isDigitCp = true)
      (h : RawAlt rest) : RawAlt (s :: r :: rest)

theorem rawAlt_cons_inv {s0 : PyStr} {tail : List PyStr}
    (h : RawAlt (s0 :: tail)) :
    s0.all (fun c => !isDigitCp c) = true ∧
      (tail = [] ∨ ∃ r rest, tail = r :: rest ∧
        (r ≠ [] ∧ r.all isDigitCp = true) ∧ RawAlt rest) := by
  cases h with
  | single s hs => exact ⟨hs, .inl rfl⟩
  | cons s r rest hs hr hx => exact ⟨hs, .inr ⟨r, rest, rfl, hr, hx⟩⟩

theorem rawSplit_rawAlt (s : PyStr) : RawAlt (rawSplit s) := by
  induction s with
  | nil => exact .single [] (by simp)
  | cons c cs ih =>
    simp only [rawSplit]
    cases h : rawSplit cs with
    | nil => exact .single [] (by simp)
    | cons s0 tail =>
      rw [h] at ih
      obtain ⟨hs0, htail⟩ := rawAlt_cons_inv ih
      dsimp only
      by_cases hc : isDigitCp c = true
      · rw [if_pos hc]
        rcases htail with rfl | ⟨r, rest, rfl, hr, hrest⟩
        · cases s0 with
          | nil =>
            exact .cons [] [c] [[]] (by simp) (by simp [hc]) (.single [] (by simp))
          | cons d ds =>
            exact .cons [] [c] [d :: ds] (by simp) (by simp [hc]) (.single _ hs0)
        · cases s0 with
          | nil =>
            exact .cons [] (c :: r) rest (by simp)
              ⟨by simp, by simp [hc, hr.2]⟩ hrest
          | cons d ds =>
            exact .cons [] [c] (((d :: ds) : PyStr) :: r :: rest) (by simp)
              (by simp [hc]) (.cons _ r rest hs0 hr hrest)
      · rw [if_neg hc]
        have hcf : isDigitCp c = false := by
          revert hc
          cases isDigitCp c <;> simp
        rcases htail with rfl | ⟨r, rest, rfl, hr, hrest⟩
        · exact .single (c :: s0) (by simp [List.all_cons, hcf, hs0])
        · exact .cons (c :: s0) r rest (by simp [List.all_cons, hcf, hs0]) hr hrest

/-- Shape of every alphanum key: alternating `str`/`int` segments, `str` at
both ends (hence odd length, strings at even indices). -/
inductive AltKey : List PyVal → Prop
  | single (s : PyStr) : AltKey [.str s]
  | cons (s : PyStr) (n : ℕ) (rest : List PyVal) (h : AltKey rest) :
      AltKey (.str s :: .int n :: rest)

theorem convert_sep {s : PyStr} (hs : s.all (fun c => !isDigitCp c)) :
    convert s = .str (pyLower s) := by
  cases s with
  | nil => rfl
  | cons c cs =>
    have : ¬ pyIsDigit (c :: cs) = true := by
      simp only [List.all_cons, Bool.and_eq_true, Bool.not_eq_true'] at hs
      simp [pyIsDigit, hs.1]
    simp [convert, this]

theorem convert_run {r : PyStr} (h1 : r ≠ []) (h2 : r.all isDigitCp = true) :
    convert r = .int (digitsToNat r) := by
  have : pyIsDigit r = true := by
    simp [pyIsDigit, h2, List.isEmpty_iff, h1]
  simp [convert, this]

theorem altKey_of_rawAlt {l : List PyStr} (h : RawAlt l) :
    AltKey (l.map convert) := by
  induction h with
  | single s hs => rw [List.map_cons, convert_sep hs]; exact .single _
  | cons s r rest hs hr hrest ih =>
    rw [List.map_cons, List.map_cons, convert_sep hs, convert_run hr.1 hr.2]
    exact .cons _ _ _ ih

theorem get_alphanum_key_altKey (k : PyStr) : AltKey (get_alphanum_key k) :=
  altKey_of_rawAlt (rawSplit_rawAlt k)

theorem altKey_length_odd {l : List PyVal} (h : AltKey l) : Odd l.length := by
  induction h with
  | single s => exact ⟨0, rfl⟩
  | cons s n rest _ ih =>
    obtain ⟨m, hm⟩ := ih
    exact ⟨m + 1, by simp [hm]; ring⟩

theorem altKey_cmp_isSome {a b : List PyVal} (ha : AltKey a) (hb : AltKey b) :
    (pyListCmp a b).isSome := by
  induction ha generalizing b with
  | single s =>
    cases hb with
    | single t =>
      simp only [pyListCmp, pyValCmp]
      cases cmpStr s t <;> simp [pyListCmp]
    | cons t m rest2 hrest2 =>
      simp only [pyListCmp, pyValCmp]
      cases cmpStr s t <;> simp [pyListCmp]
  | cons s n rest hrest ih =>
    cases hb with
    | single t =>
      simp only [pyListCmp, pyValCmp]
      cases cmpStr s t <;> simp [pyListCmp]
    | cons t m rest2 hrest2 =>
      simp only [pyListCmp, pyValCmp]
      cases cmpStr s t <;> simp only [pyListCmp, pyValCmp] <;> try simp
      cases compare n m <;> simp only [pyListCmp, pyValCmp] <;> try simp
      exact ih hrest2

theorem altKey_segments {l : List PyVal} (h : AltKey l) :
    ∀ i (hi : i < l.length),
      (Even i → ∃ s, l.get ⟨i, hi⟩ = .str s) ∧
      (¬ Even i → ∃ n, l.get ⟨i, hi⟩ = .int n) := by
  induction h with
  | single s =>
    intro i hi
    have : i = 0 := by simpa using hi
    subst this
    exact ⟨fun _ => ⟨s, rfl⟩, fun h' => absurd even_zero h'⟩
  | cons s n rest hrest ih =>
    intro i hi
    match i with
    | 0 => exact ⟨fun _ => ⟨s, rfl⟩, fun h' => absurd even_zero h'⟩
    | 1 => exact ⟨fun h' => absurd h' (by decide), fun _ => ⟨n, rfl⟩⟩
    | (k+2) =>
      have hk : k < rest.length := by
        simpa using Nat.lt_of_add_lt_add_right hi
      have hparity : Even (k + 2) ↔ Even k := by
        rw [Nat.even_iff, Nat.even_iff]
        omega
      obtain ⟨h1, h2⟩ := ih k hk
      constructor
      · intro he
        obtain ⟨t, ht⟩ := h1 (hparity.1 he)
        exact ⟨t, by simpa [List.get] using ht⟩
      · intro he
        obtain ⟨m, hm⟩ := h2 (fun hk' => he (hparity.2 hk'))
        exact ⟨m, by simpa [List.get] using hm⟩

/-!
## Full Unicode digit semantics (claims C2 and C8)

`convert` above models `text.isdigit()` and `int(text)` with ASCII digits
only, which is exact for strings containing no non-ASCII digit
characters.  Python's `str.isdigit`, however, accepts every character
with Unicode property Numeric_Type=Decimal or Numeric_Type=Digit, and
`int()` accepts exactly the Decimal ones.  So a separator piece of
`re.split('([0-9]+)', ...)` (which splits on ASCII digits only) can itself
be digit-true: `"٣"` (code point 1635) converts to the integer 3, and
`"²"` (code point 178) makes `int()` raise a `ValueError`.  The functions
below model the real semantics; the agreement theorem links them to the
ASCII model on strings without non-ASCII digit characters.
-/

/-- Inclusive runs of code points with Unicode property
Numeric_Type=Decimal (category `Nd`): exactly the characters `int()`
accepts as digits, each with value `c - lo`.  Generated from the Unicode
character database of the program's runtime; the ASCII run comes first. -/
def decimalDigitRuns : List (ℕ × ℕ) :=
  [(48, 57), (1632, 1641), (1776, 1785), (1984, 1993),
   (2406, 2415), (2534, 2543), (2662, 2671), (2790, 2799),
   (2918, 2927), (3046, 3055), (3174, 3183), (3302, 3311),
   (3430, 3439), (3558, 3567), (3664, 3673), (3792, 3801),
   (3872, 3881), (4160, 4169), (4240, 4249), (6112, 6121),
   (6160, 6169), (6470, 6479), (6608, 6617), (6784, 6793),
   (6800, 6809), (6992, 7001), (7088, 7097), (7232, 7241),
   (7248, 7257), (42528, 42537), (43216, 43225), (43264, 43273),
   (43472, 43481), (43504, 43513), (43600, 43609), (44016, 44025),
   (65296, 65305), (66720, 66729), (68912, 68921), (69734, 69743),
   (69872, 69881), (69942, 69951), (70096, 70105), (70384, 70393),
   (70736, 70745), (70864, 70873), (71248, 71257), (71360, 71369),
   (71472, 71481), (71904, 71913), (72016, 72025), (72784, 72793),
   (73040, 73049), (73120, 73129), (92768, 92777), (92864, 92873),
   (93008, 93017), (120782, 120791), (120792, 120801), (120802, 120811),
   (120812, 120821), (120822, 120831), (123200, 123209), (123632, 123641),
   (125264, 125273), (130032, 130041)]

/-- Inclusive runs of code points with Numeric_Type=Digit but not
Decimal (e.g. superscripts such as `'²'`): `str.isdigit` accepts them but
`int()` rejects them with a `ValueError`.  Generated likewise. -/
def nonDecimalDigitRuns : List (ℕ × ℕ) :=
  [(178, 179), (185, 185), (4969, 4977), (6618, 6618),
   (8304, 8304), (8308, 8313), (8320, 8329), (9312, 9320),
   (9332, 9340), (9352, 9360), (9450, 9450), (9461, 9469),
   (9471, 9471), (10102, 10110), (10112, 10120), (10122, 10130),
   (68160, 68163), (69216, 69224), (69714, 69722), (127232, 127242)]

/-- Does code point `c` lie in run `r`? -/
def cpInRun (c : ℕ) (r : ℕ × ℕ) : Bool := decide (r.1 ≤ c) && decide (c ≤ r.2)

/-- Is `c` a character `int()` accepts as a digit (Numeric_Type=Decimal)? -/
def isDecimalCp (c : ℕ) : Bool := decimalDigitRuns.any (cpInRun c)

/-- Python `c.isdigit()` for one code point, full Unicode:
Numeric_Type=Decimal or Digit. -/
def isPyDigitCp (c : ℕ) : Bool :=
  isDecimalCp c || nonDecimalDigitRuns.any (cpInRun c)

/-- The decimal value of a Decimal code point (0 elsewhere; runs are
disjoint, and each run's values are `c - lo`). -/
def decimalVal (c : ℕ) : ℕ :=
  match decimalDigitRuns.find? (cpInRun c) with
  | some r => c - r.1
  | none => 0

/-- Python `int(text)` on a digit-true string: its decimal value when
every character is Decimal, `none` (a `ValueError`) otherwise. -/
def pyIntU (s : PyStr) : Option ℕ :=
  if s.all isDecimalCp then
    some (s.foldl (fun n c => n * 10 + decimalVal c) 0)
  else none

/-- Python `text.isdigit()`, full Unicode: non-empty and all digits. -/
def pyIsDigitU (s : PyStr) : Bool := !s.isEmpty && s.all isPyDigitCp

/-- The real `convert` (line 90): `int(text)` if `text.isdigit()` else
`text.lower()`; `none` models the `ValueError` raised by `int()` on a
digit-true piece with a non-Decimal character. -/
def convertU (s : PyStr) : Option PyVal :=
  if pyIsDigitU s then (pyIntU s).map PyVal.int
  else some (.str (pyLower s))

/-- Convert every piece of the split, propagating a `ValueError`. -/
def convertAll : List PyStr → Option (List PyVal)
  | [] => some []
  | p :: ps =>
    match convertU p with
    | none => none
    | some v =>
      match convertAll ps with
      | none => none
      | some vs => some (v :: vs)

/-- The real `get_alphanum_key`: `none` when `int()` raises. -/
def get_alphanum_keyU (key : PyStr) : Option (List PyVal) :=
  convertAll (rawSplit key)

/-- `s` contains no non-ASCII digit characters: every character Python's
`isdigit` accepts is an ASCII digit.  On such strings the full Unicode
semantics and the ASCII model agree. -/
def noNonAsciiDigits (s : PyStr) : Prop :=
  ∀ c ∈ s, isPyDigitCp c = true → isDigitCp c = true

instance (s : PyStr) : Decidable (noNonAsciiDigits s) :=
  inferInstanceAs (Decidable (∀ c ∈ s, isPyDigitCp c = true → isDigitCp c = true))

theorem rawSplit_ne_nil (s : PyStr) : rawSplit s ≠ [] := by
  have h := rawSplit_rawAlt s
  intro hnil
  rw [hnil] at h
  cases h

theorem rawSplit_chars_mem :
    ∀ (s : PyStr), ∀ p ∈ rawSplit s, ∀ c ∈ p, c ∈ s := by
  intro s
  induction s with
  | nil =>
    intro p hp c hc
    simp only [rawSplit, List.mem_singleton] at hp
    subst hp
    exact absurd hc (by simp)
  | cons a as ih =>
    intro p hp c hc
    rw [rawSplit] at hp
    cases h : rawSplit as with
    | nil => exact absurd h (rawSplit_ne_nil as)
    | cons s0 tail =>
      rw [h] at hp
      dsimp only at hp
      have ih' : ∀ q ∈ s0 :: tail, ∀ x ∈ q, x ∈ as := by
        intro q hq x hx
        exact ih q (h ▸ hq) x hx
      by_cases hd : isDigitCp a = true
      · rw [if_pos hd] at hp
        cases s0 with
        | nil =>
          cases tail with
          | nil =>
            simp only [List.mem_cons, List.not_mem_nil, or_false] at hp
            rcases hp with rfl | rfl | rfl
            · exact absurd hc (by simp)
            · simp only [List.mem_singleton] at hc
              subst hc
              exact List.mem_cons_self _ _
            · exact absurd hc (by simp)
          | cons r tail2 =>
            simp only [List.mem_cons] at hp
            rcases hp with rfl | rfl | hp2
            · exact absurd hc (by simp)
            · rcases List.mem_cons.1 hc with rfl | hcr
              · exact List.mem_cons_self _ _
              · exact List.mem_cons_of_mem a (ih' r (by simp) c hcr)
            · exact List.mem_cons_of_mem a (ih' p (by simp [hp2]) c hc)
        | cons e es =>
          simp only [List.mem_cons] at hp
          rcases hp with rfl | rfl | rfl | hp2
          · exact absurd hc (by simp)
          · simp only [List.mem_singleton] at hc
            subst hc
            exact List.mem_cons_self _ _
          · exact List.mem_cons_of_mem a (ih' (e :: es) (by simp) c hc)
          · exact List.mem_cons_of_mem a (ih' p (by simp [hp2]) c hc)
      · rw [if_neg hd] at hp
        rcases List.mem_cons.1 hp with rfl | hp2
        · rcases List.mem_cons.1 hc with rfl | hcs
          · exact List.mem_cons_self _ _
          · exact List.mem_cons_of_mem a (ih' s0 (by simp) c hcs)
        · exact List.mem_cons_of_mem a (ih' p (by simp [hp2]) c hc)

theorem rawAlt_pieces {l : List PyStr} (h : RawAlt l) :
    ∀ p ∈ l, p.all (fun c => !isDigitCp c) = true ∨
      (p ≠ [] ∧ p.all isDigitCp = true) := by
  induction h with
  | single s hs =>
    intro p hp
    rw [List.mem_singleton] at hp
    subst hp
    exact .inl hs
  | cons s r rest hs hr hrest ih =>
    intro p hp
    rcases List.mem_cons.1 hp with rfl | hp2
    · exact .inl hs
    · rcases List.mem_cons.1 hp2 with rfl | hp3
      · exact .inr hr
      · exact ih p hp3

theorem isDecimalCp_ascii {c : ℕ} (h1 : 48 ≤ c) (h2 : c ≤ 57) :
    isDecimalCp c = true := by
  rw [isDecimalCp, decimalDigitRuns, List.any_cons]
  have hh : cpInRun c (48, 57) = true := by simp [cpInRun, h1, h2]
  rw [hh]
  rfl

theorem isPyDigitCp_ascii {c : ℕ} (h1 : 48 ≤ c) (h2 : c ≤ 57) :
    isPyDigitCp c = true := by
  rw [isPyDigitCp, isDecimalCp_ascii h1 h2]
  rfl

theorem decimalVal_ascii {c : ℕ} (h1 : 48 ≤ c) (h2 : c ≤ 57) :
    decimalVal c = c - 48 := by
  have hh : cpInRun c (48, 57) = true := by simp [cpInRun, h1, h2]
  rw [decimalVal, decimalDigitRuns, List.find?_cons_of_pos _ hh]

theorem foldl_decimalVal_eq {p : PyStr}
    (h : ∀ c ∈ p, decimalVal c = c - 48) :
    ∀ n : ℕ, p.foldl (fun n c => n * 10 + decimalVal c) n
      = p.foldl (fun n c => n * 10 + (c - 48)) n := by
  induction p with
  | nil => intro n; rfl
  | cons c cs ih =>
    intro n
    simp only [List.foldl_cons]
    rw [h c (List.mem_cons_self c cs)]
    exact ih (fun x hx => h x (List.mem_cons_of_mem c hx)) _

theorem digitCp_bounds {c : ℕ} (h : isDigitCp c = true) : 48 ≤ c ∧ c ≤ 57 := by
  rw [isDigitCp] at h
  simpa using h

theorem pyIntU_ascii_run {p : PyStr} (h : p.all isDigitCp = true) :
    pyIntU p = some (digitsToNat p) := by
  have hdec : p.all isDecimalCp = true := by
    rw [List.all_eq_true] at h ⊢
    intro c hc
    obtain ⟨h1, h2⟩ := digitCp_bounds (h c hc)
    exact isDecimalCp_ascii h1 h2
  rw [pyIntU, if_pos hdec, digitsToNat]
  rw [foldl_decimalVal_eq]
  intro c hc
  obtain ⟨h1, h2⟩ := digitCp_bounds (List.all_eq_true.1 h c hc)
  exact decimalVal_ascii h1 h2

theorem convertU_eq_convert {p : PyStr}
    (hshape : p.all (fun c => !isDigitCp c) = true ∨
      (p ≠ [] ∧ p.all isDigitCp = true))
    (hp : ∀ c ∈ p, isPyDigitCp c = true → isDigitCp c = true) :
    convertU p = some (convert p) := by
  rcases hshape with hsep | ⟨hne, hrun⟩
  · have hdig : pyIsDigitU p = false := by
      cases p with
      | nil => rfl
      | cons c cs =>
        have h1 : isDigitCp c = false := by
          have := List.all_eq_true.1 hsep c (List.mem_cons_self c cs)
          simpa using this
        have h2 : isPyDigitCp c = false := by
          cases hpy : isPyDigitCp c
          · rfl
          · exact absurd (hp c (List.mem_cons_self c cs) hpy) (by simp [h1])
        simp [pyIsDigitU, List.all_cons, h2]
    have hdig2 : pyIsDigit p = false := by
      cases p with
      | nil => rfl
      | cons c cs =>
        have h1 : isDigitCp c = false := by
          have := List.all_eq_true.1 hsep c (List.mem_cons_self c cs)
          simpa using this
        simp [pyIsDigit, List.all_cons, h1]
    rw [convertU, if_neg (by simp [hdig]), convert, if_neg (by simp [hdig2])]
  · have hU : pyIsDigitU p = true := by
      rw [pyIsDigitU]
      have hall : p.all isPyDigitCp = true := by
        rw [List.all_eq_true] at hrun ⊢
        intro c hc
        obtain ⟨h1, h2⟩ := digitCp_bounds (hrun c hc)
        exact isPyDigitCp_ascii h1 h2
      simp [hall, List.isEmpty_iff, hne]
    have hA : pyIsDigit p = true := by
      simp [pyIsDigit, hrun, List.isEmpty_iff, hne]
    rw [convertU, if_pos hU, convert, if_pos hA, pyIntU_ascii_run hrun]
    rfl

theorem convertAll_eq_map {l : List PyStr}
    (h : ∀ p ∈ l, convertU p = some (convert p)) :
    convertAll l = some (l.map convert) := by
  induction l with
  | nil => rfl
  | cons p ps ih =>
    rw [convertAll, h p (List.mem_cons_self p ps),
      ih (fun q hq => h q (List.mem_cons_of_mem p hq))]
    rfl

/-- On a version string with no non-ASCII digit characters, the real key
agrees with the ASCII model's key. -/
theorem get_alphanum_keyU_eq {k : PyStr} (h : noNonAsciiDigits k) :
    get_alphanum_keyU k = some (get_alphanum_key k) := by
  rw [get_alphanum_keyU, get_alphanum_key]
  apply convertAll_eq_map
  intro p hp
  exact convertU_eq_convert
    (rawAlt_pieces (rawSplit_rawAlt k) p hp)
    (fun c hc hpy => h c (rawSplit_chars_mem k p hp c hc) hpy)

/-- C8 (amended): for every version string containing no non-ASCII digit
characters, the real key agrees with the ASCII model's key, which is an
odd-length list alternating string and integer segments — strings at even
indices, integers at odd indices, so the first and last segments are
always strings — and therefore Python's element-wise list comparison of
any two such keys is always well-defined (no `TypeError`).  Unrestricted
this is false of the program: `str.isdigit` accepts non-ASCII digit
characters, so a key can be a bare integer list (see the counterexample
theorem). -/
theorem alphanum_key_shape_and_comparison_safety :
    (∀ k : PyStr, noNonAsciiDigits k →
      get_alphanum_keyU k = some (get_alphanum_key k)) ∧
    (∀ k : PyStr, AltKey (get_alphanum_key k)) ∧
    (∀ k : PyStr, Odd (get_alphanum_key k).length) ∧
    (∀ k : PyStr, ∀ i (hi : i < (get_alphanum_key k).length),
      (Even i → ∃ s, (get_alphanum_key k).get ⟨i, hi⟩ = .str s) ∧
      (¬ Even i → ∃ n, (get_alphanum_key k).get ⟨i, hi⟩ = .int n)) ∧
    (∀ a b : PyStr, noNonAsciiDigits a → noNonAsciiDigits b →
      ∃ ka kb, get_alphanum_keyU a = some ka ∧ get_alphanum_keyU b = some kb ∧
        (pyListCmp ka kb).isSome) :=
  ⟨fun _ h => get_alphanum_keyU_eq h,
   get_alphanum_key_altKey,
   fun k => altKey_length_odd (get_alphanum_key_altKey k),
   fun k => altKey_segments (get_alphanum_key_altKey k),
   fun a b ha hb =>
     ⟨get_alphanum_key a, get_alphanum_key b, get_alphanum_keyU_eq ha,
      get_alphanum_keyU_eq hb,
      altKey_cmp_isSome (get_alphanum_key_altKey a)
        (get_alphanum_key_altKey b)⟩⟩

/-- Witness for the key-shape theorem at concrete inputs: "1.2" has no
non-ASCII digits, so the real key equals the model key; index 0 of that
key holds a string and index 1 an integer. -/
theorem alphanum_key_shape_and_comparison_safety_witness :
    get_alphanum_keyU (chars "1.2") = some (get_alphanum_key (chars "1.2")) ∧
    (∃ s, (get_alphanum_key (chars "1.2")).get ⟨0, by decide⟩ = PyVal.str s) ∧
    (∃ n, (get_alphanum_key (chars "1.2")).get ⟨1, by decide⟩ = PyVal.int n) :=
  ⟨alphanum_key_shape_and_comparison_safety.1 (chars "1.2") (by decide),
   (alphanum_key_shape_and_comparison_safety.2.2.2.1 (chars "1.2") 0
      (by decide)).1 (by decide),
   (alphanum_key_shape_and_comparison_safety.2.2.2.1 (chars "1.2") 1
      (by decide)).2 (by decide)⟩

/-- Stable insertion: `x` goes before the first element not strictly below
it. -/
def insertSorted (lt : α → α → Bool) (x : α) : List α → List α
  | [] => [x]
  | y :: ys => if lt y x then y :: insertSorted lt x ys else x :: y :: ys

/-- Stable insertion sort: the model of Python's stable `sorted`. -/
def stableSort (lt : α → α → Bool) : List α → List α
  | [] => []
  | x :: xs => insertSorted lt x (stableSort lt xs)

/-- Python `x < y` on two version strings via their alphanum keys. -/
def versionLtB (a b : PyStr) : Bool :=
  pyLtB (get_alphanum_key a) (get_alphanum_key b)

/-- `sorted_alphanumeric` (snowchange.py line 95). -/
def sorted_alphanumeric (data : List PyStr) : List PyStr :=
  stableSort versionLtB data

/-- Lines 49-53 of `snowchange`: `''` when the change history is empty,
otherwise the last element of the sorted history. -/
def max_published_version (change_history : List PyStr) : PyStr :=
  (sorted_alphanumeric change_history).getLastD []

theorem insertSorted_perm (lt : α → α → Bool) (x : α) (l : List α) :
    (insertSorted lt x l).Perm (x :: l) := by
  induction l with
  | nil => exact List.Perm.refl _
  | cons y ys ih =>
    by_cases h : lt y x = true
    · rw [insertSorted, if_pos h]
      exact (ih.cons y).trans (List.Perm.swap x y ys)
    · rw [insertSorted, if_neg h]

theorem stableSort_perm (lt : α → α → Bool) (l : List α) :
    (stableSort lt l).Perm l := by
  induction l with
  | nil => exact List.Perm.refl _
  | cons x xs ih =>
    exact (insertSorted_perm lt x (stableSort lt xs)).trans (ih.cons x)

theorem mem_stableSort (lt : α → α → Bool) (l : List α) (a : α) :
    a ∈ stableSort lt l ↔ a ∈ l :=
  (stableSort_perm lt l).mem_iff

theorem insertSorted_pairwise {lt : α → α → Bool}
    (hasym : ∀ a b, lt a b = true → lt b a = false)
    (htrans : ∀ a b c, lt b a = false → lt c b = false → lt c a = false)
    (x : α) {l : List α} (hl : l.Pairwise (fun a b => lt b a = false)) :
    (insertSorted lt x l).Pairwise (fun a b => lt b a = false) := by
  induction l with
  | nil => simp [insertSorted]
  | cons y ys ih =>
    obtain ⟨hy, hys⟩ := List.pairwise_cons.1 hl
    by_cases h : lt y x = true
    · rw [insertSorted, if_pos h]
      refine List.pairwise_cons.2 ⟨?_, ih hys⟩
      intro z hz
      rcases List.mem_cons.1 ((insertSorted_perm lt x ys).subset hz) with rfl | hzys
      · exact hasym y z h
      · exact hy z hzys
    · rw [insertSorted, if_neg h]
      have hx : lt y x = false := by revert h; cases lt y x <;> simp
      refine List.pairwise_cons.2 ⟨?_, hl⟩
      intro z hz
      rcases List.mem_cons.1 hz with rfl | hzys
      · exact hx
      · exact htrans x y z hx (hy z hzys)

theorem stableSort_pairwise {lt : α → α → Bool}
    (hasym : ∀ a b, lt a b = true → lt b a = false)
    (htrans : ∀ a b c, lt b a = false → lt c b = false → lt c a = false)
    (l : List α) :
    (stableSort lt l).Pairwise (fun a b => lt b a = false) := by
  induction l with
  | nil => simp [stableSort]
  | cons x xs ih => exact insertSorted_pairwise hasym htrans x ih

theorem getLastD_mem : ∀ (l : List α) (d : α), l ≠ [] → l.getLastD d ∈ l := by
  intro l
  induction l with
  | nil => simp
  | cons x xs ih =>
    intro d _
    cases xs with
    | nil => simp [List.getLastD]
    | cons y ys =>
      have h2 : (x :: y :: ys).getLastD d = (y :: ys).getLastD d := by
        simp [List.getLastD]
      rw [h2]
      exact List.mem_cons_of_mem x (ih d (by simp))

/-- In a list sorted by `R`, every element is the `getLastD`, or `R`-below
it. -/
theorem pairwise_getLastD {R : α → α → Prop} :
    ∀ (l : List α), l.Pairwise R → ∀ v ∈ l, ∀ d,
      v = l.getLastD d ∨ R v (l.getLastD d) := by
  intro l
  induction l with
  | nil => intro _ v hv; exact absurd hv (by simp)
  | cons x xs ih =>
    intro hpw v hv d
    obtain ⟨hx, hxs⟩ := List.pairwise_cons.1 hpw
    cases xs with
    | nil =>
      have : v = x := by simpa using hv
      subst this
      exact .inl rfl
    | cons y ys =>
      have hlast : (x :: y :: ys).getLastD d = (y :: ys).getLastD d := by
        simp [List.getLastD]
      rw [hlast]
      rcases List.mem_cons.1 hv with rfl | hvtail
      · exact .inr (hx _ (getLastD_mem (y :: ys) d (by simp)))
      · exact ih hxs v hvtail d

theorem pyLtB_asym {a b : List PyVal} (h : pyLtB a b = true) :
    pyLtB b a = false := by
  rw [pyLtB, decide_eq_true_eq] at h
  have hba : pyListCmp b a = some .gt := by rw [pyListCmp_swap, h]; rfl
  simp [pyLtB, hba]

theorem pyLtB_nlt_trans {a b c : List PyVal}
    (ha : AltKey a) (hb : AltKey b) (hc : AltKey c)
    (h1 : pyLtB b a = false) (h2 : pyLtB c b = false) : pyLtB c a = false := by
  obtain ⟨o1, ho1⟩ := Option.isSome_iff_exists.1 (altKey_cmp_isSome hb ha)
  obtain ⟨o2, ho2⟩ := Option.isSome_iff_exists.1 (altKey_cmp_isSome hc hb)
  rw [pyLtB, decide_eq_false_iff_not, ho1] at h1
  rw [pyLtB, decide_eq_false_iff_not, ho2] at h2
  cases o1 with
  | lt => exact absurd rfl h1
  | eq =>
    have : b = a := pyListCmp_eq_iff.1 ho1
    subst this
    simp [pyLtB, ho2]
    intro hcontra
    exact h2 (by rw [hcontra])
  | gt =>
    cases o2 with
    | lt => exact absurd rfl h2
    | eq =>
      have : c = b := pyListCmp_eq_iff.1 ho2
      subst this
      simp [pyLtB, ho1]
    | gt =>
      have hab : pyListCmp a b = some .lt := by
        rw [pyListCmp_swap, ho1]; rfl
      have hbc : pyListCmp b c = some .lt := by
        rw [pyListCmp_swap, ho2]; rfl
      have hac : pyListCmp a c = some .lt := pyListCmp_lt_trans hab hbc
      have hca : pyListCmp c a = some .gt := by
        rw [pyListCmp_swap, hac]; rfl
      simp [pyLtB, hca]

theorem versionLtB_asym (a b : PyStr) (h : versionLtB a b = true) :
    versionLtB b a = false := pyLtB_asym h

theorem versionLtB_nlt_trans (a b c : PyStr)
    (h1 : versionLtB b a = false) (h2 : versionLtB c b = false) :
    versionLtB c a = false :=
  pyLtB_nlt_trans (get_alphanum_key_altKey a) (get_alphanum_key_altKey b)
    (get_alphanum_key_altKey c) h1 h2

theorem pyLeB_self (a : List PyVal) : pyLeB a a = true := by
  simp [pyLeB, pyListCmp_self]

theorem pyLeB_of_nlt {a b : List PyVal} (ha : AltKey a) (hb : AltKey b)
    (h : pyLtB b a = false) : pyLeB a b = true := by
  obtain ⟨o, ho⟩ := Option.isSome_iff_exists.1 (altKey_cmp_isSome hb ha)
  rw [pyLtB, decide_eq_false_iff_not, ho] at h
  cases o with
  | lt => exact absurd rfl h
  | eq =>
    have : b = a := pyListCmp_eq_iff.1 ho
    subst this
    exact pyLeB_self _
  | gt =>
    have hab : pyListCmp a b = some .lt := by
      rw [pyListCmp_swap, ho]; rfl
    simp [pyLeB, hab]

theorem pyLeB_false_iff_gt {a b : List PyVal} (ha : AltKey a) (hb : AltKey b) :
    pyLeB a b = false ↔ pyListCmp a b = some .gt := by
  obtain ⟨o, ho⟩ := Option.isSome_iff_exists.1 (altKey_cmp_isSome ha hb)
  rw [ho]
  cases o <;> simp [pyLeB, ho]

theorem get_alphanum_key_nil : get_alphanum_key [] = [.str []] := rfl

/-- A non-empty version string's key strictly exceeds the key of `''`. -/
theorem key_gt_empty {v : PyStr} (hv : v ≠ []) :
    pyListCmp (get_alphanum_key v) (get_alphanum_key []) = some .gt := by
  cases v with
  | nil => exact absurd rfl hv
  | cons c cs =>
    rw [get_alphanum_key_nil]
    simp only [get_alphanum_key, rawSplit]
    cases h : rawSplit cs with
    | nil => exact absurd h (rawSplit_ne_nil cs)
    | cons s0 tail =>
      dsimp only
      by_cases hc : isDigitCp c = true
      · rw [if_pos hc]
        rcases s0 with _ | ⟨d, ds⟩
        · rcases tail with _ | ⟨r, tail2⟩
          · simp [pyListCmp, pyValCmp, convert, pyIsDigit, pyLower, cmpStr]
          · simp [pyListCmp, pyValCmp, convert, pyIsDigit, pyLower, cmpStr]
        · simp [pyListCmp, pyValCmp, convert, pyIsDigit, pyLower, cmpStr]
      · rw [if_neg hc]
        have hcf : isDigitCp c = false := by revert hc; cases isDigitCp c <;> simp
        have : convert (c :: s0) = .str (lowerCp c :: pyLower s0) := by
          simp [convert, pyIsDigit, hcf, pyLower]
        simp [pyListCmp, this, pyValCmp, cmpStr]

/-!
## The script catalog and the migration plan (snowchange.py lines 62-79)
-/

/-- One discovered change script: the nested dict built at lines 114-121. -/
structure Script where
  script_name : PyStr
  script_full_path : PyStr
  script_type : PyStr
  script_version : PyStr
  script_description : PyStr
deriving DecidableEq

/-- The comparison that orders `all_script_names_sorted` (line 64): Python
`<` on the alphanum keys of the script file NAMES (not of the versions). -/
def script_sort_lt (s t : Script) : Bool :=
  pyLtB (get_alphanum_key s.script_name) (get_alphanum_key t.script_name)

/-- The sequence of scripts the loop at lines 67-79 applies, in order:
the catalog sorted by file-name alphanum key (line 64), keeping exactly the
scripts whose version key is not `<=` the max published version key
(line 71). -/
def planScripts (catalog : List Script) (change_history : List PyStr) :
    List Script :=
  (stableSort script_sort_lt catalog).filter
    (fun s => !pyLeB (get_alphanum_key s.script_version)
      (get_alphanum_key (max_published_version change_history)))

theorem script_sort_lt_asym (s t : Script) (h : script_sort_lt s t = true) :
    script_sort_lt t s = false := pyLtB_asym h

theorem script_sort_lt_nlt_trans (s t u : Script)
    (h1 : script_sort_lt t s = false) (h2 : script_sort_lt u t = false) :
    script_sort_lt u s = false :=
  pyLtB_nlt_trans (get_alphanum_key_altKey _) (get_alphanum_key_altKey _)
    (get_alphanum_key_altKey _) h1 h2

/-- C1 (amended): the plan consists of exactly those catalog entries whose
Version Key strictly exceeds the greatest applied Version Key — the
watermark `max_published_version`, which is `<=`-above every applied version
and is itself one of the applied versions when any exist; when no version is
applied every catalog entry (with its non-empty version) is planned.  The
plan is returned in ascending order of the alphanum key of the script FILE
NAME (the code sorts by `script_name`, not by version — see the
counterexample theorem for why this is not always ascending Version Key
order). -/
theorem plan_is_watermark_filter_in_name_key_order
    (catalog : List Script) (applied : List PyStr) :
    (∀ s : Script, s ∈ planScripts catalog applied ↔ s ∈ catalog ∧
      pyListCmp (get_alphanum_key s.script_version)
        (get_alphanum_key (max_published_version applied)) = some .gt) ∧
    (∀ v ∈ applied, pyLeB (get_alphanum_key v)
      (get_alphanum_key (max_published_version applied)) = true) ∧
    (applied ≠ [] → max_published_version applied ∈ applied) ∧
    (applied = [] → ∀ s ∈ catalog, s.script_version ≠ [] →
      s ∈ planScripts catalog applied) ∧
    (planScripts catalog applied).Pairwise
      (fun s t => script_sort_lt t s = false) := by
  have hmemiff : ∀ s : Script, s ∈ planScripts catalog applied ↔ s ∈ catalog ∧
      pyListCmp (get_alphanum_key s.script_version)
        (get_alphanum_key (max_published_version applied)) = some .gt := by
    intro s
    rw [planScripts, List.mem_filter, mem_stableSort]
    constructor
    · rintro ⟨hmem, hsel⟩
      rw [Bool.not_eq_eq_eq_not, Bool.not_true] at hsel
      exact ⟨hmem, (pyLeB_false_iff_gt (get_alphanum_key_altKey _)
        (get_alphanum_key_altKey _)).1 hsel⟩
    · rintro ⟨hmem, hgt⟩
      refine ⟨hmem, ?_⟩
      rw [Bool.not_eq_eq_eq_not, Bool.not_true]
      exact (pyLeB_false_iff_gt (get_alphanum_key_altKey _)
        (get_alphanum_key_altKey _)).2 hgt
  refine ⟨hmemiff, ?_, ?_, ?_, ?_⟩
  · intro v hv
    have hpw := stableSort_pairwise versionLtB_asym versionLtB_nlt_trans applied
    have hvmem : v ∈ sorted_alphanumeric applied :=
      (mem_stableSort versionLtB applied v).2 hv
    rcases pairwise_getLastD (sorted_alphanumeric applied) hpw v hvmem []
      with heq | hlt
    · rw [max_published_version, ← heq]
      exact pyLeB_self _
    · exact pyLeB_of_nlt (get_alphanum_key_altKey _) (get_alphanum_key_altKey _)
        hlt
  · intro hne
    have hsne : sorted_alphanumeric applied ≠ [] := by
      intro hnil
      exact hne (List.Perm.eq_nil ((stableSort_perm versionLtB applied).symm.trans
        (hnil ▸ List.Perm.refl _)))
    exact (stableSort_perm versionLtB applied).subset
      (getLastD_mem _ [] hsne)
  · rintro rfl s hs hv
    refine (hmemiff s).2 ⟨hs, ?_⟩
    have hmax : max_published_version [] = [] := rfl
    rw [hmax]
    exact key_gt_empty hv
  · exact List.Pairwise.filter _
      (stableSort_pairwise script_sort_lt_asym script_sort_lt_nlt_trans catalog)

/-- Witness for the planning theorem: the spec's own examples.  With applied
versions `["1.0","1.1"]` and catalog versions `["1.0","1.1","1.2","2.0"]`
the plan is exactly `["1.2","2.0"]` in that order; with applied `["2.0"]` a
catalog script of version `"1.5"` is excluded; with nothing applied a script
is planned. -/
theorem plan_is_watermark_filter_in_name_key_order_witness :
    ((⟨chars "V1__a.sql", chars "V1__a.sql", chars "V", chars "1",
        chars "A"⟩ : Script) ∈
      planScripts [⟨chars "V1__a.sql", chars "V1__a.sql", chars "V",
        chars "1", chars "A"⟩] []) ∧
    (planScripts
        [⟨chars "V1.0__a.sql", chars "V1.0__a.sql", chars "V", chars "1.0",
           chars "A"⟩,
         ⟨chars "V1.1__b.sql", chars "V1.1__b.sql", chars "V", chars "1.1",
           chars "B"⟩,
         ⟨chars "V1.2__c.sql", chars "V1.2__c.sql", chars "V", chars "1.2",
           chars "C"⟩,
         ⟨chars "V2.0__d.sql", chars "V2.0__d.sql", chars "V", chars "2.0",
           chars "D"⟩]
        [chars "1.0", chars "1.1"]).map Script.script_version
      = [chars "1.2", chars "2.0"] ∧
    ¬ ((⟨chars "V1.5__e.sql", chars "V1.5__e.sql", chars "V", chars "1.5",
        chars "E"⟩ : Script) ∈
      planScripts [⟨chars "V1.5__e.sql", chars "V1.5__e.sql", chars "V",
        chars "1.5", chars "E"⟩] [chars "2.0"]) := by
  refine ⟨(plan_is_watermark_filter_in_name_key_order _ _).2.2.2.1 rfl _
      (by decide) (by decide),
    by decide, fun hmem => ?_⟩
  have h2 := ((plan_is_watermark_filter_in_name_key_order _ _).1 _).1 hmem
  exact absurd h2.2 (by decide)

/-!
## Script discovery — `get_all_scripts_recursively` (lines 99-128)

The filename pattern `^([V])(.+)__(.+)\.sql$` is matched with Python's
greedy backtracking: the leading `V` and the trailing `.sql` are literal,
`.` matches any character except a newline, and the first `(.+)` is
maximal, so the stem between `V` and `.sql` splits at the LAST occurrence
of `__` that leaves a non-empty description.  Every stem character is
consumed by one of the two `(.+)` groups, so a newline anywhere in the stem
makes the whole match fail.
-/

instance {ε α : Type} [DecidableEq ε] [DecidableEq α] :
    DecidableEq (Except ε α) := fun a b =>
  match a, b with
  | .error e, .error f => decidable_of_iff (e = f) (by simp)
  | .ok x, .ok y => decidable_of_iff (x = y) (by simp)
  | .error _, .ok _ => isFalse (by simp)
  | .ok _, .error _ => isFalse (by simp)

/-- Helper for `splitLastSep`: is a new separator starting right here?
`c` is the current character and `cs` the remainder; a split needs
`c = '_'`, the next character to be `'_'`, and at least one character
after that. -/
def splitLastSepHead (c : ℕ) : PyStr → Option (PyStr × PyStr)
  | [] => none
  | d :: rest =>
    match rest with
    | [] => none
    | e :: es => if c = 95 ∧ d = 95 then some ([], e :: es) else none

/-- Split `core` at the last occurrence of `__` that is followed by at
least one character: the (possibly empty) part before it and the non-empty
part after it. -/
def splitLastSep : PyStr → Option (PyStr × PyStr)
  | [] => none
  | c :: cs =>
    match splitLastSep cs with
    | some (a, b) => some (c :: a, b)
    | none => splitLastSepHead c cs

/-- `re.search(r'^([V])(.+)__(.+)\.sql$', file_name.strip())` (line 106):
`some (version, description-token)` on a match (group 1 is always `"V"`). -/
def matchScriptName (file_name : PyStr) : Option (PyStr × PyStr) :=
  match pyStrip file_name with
  | c :: rest =>
    if c = 86 ∧ rest.drop (rest.length - 4) = chars ".sql" then
      let core := rest.take (rest.length - 4)
      if core.all (fun ch => decide (ch ≠ 10)) then
        match splitLastSep core with
        | some (a, b) => if decide (a = []) then none else some (a, b)
        | none => none
      else none
    else none
  | [] => none

/-- The message of the `ValueError` raised at line 125. -/
def dupVersionMsg (version full_path : PyStr) : PyStr :=
  chars "The script version " ++ version ++
    chars " exists more than once (second instance " ++ full_path ++ chars ")"

/-- `os.path.join(directory_path, file_name)` (POSIX directory path with no
trailing slash). -/
def pathJoin (dir name : PyStr) : PyStr := dir ++ (47 :: name)

/-- Python `str.replace('_', ' ')`. -/
def replaceUnderscores (s : PyStr) : PyStr :=
  s.map (fun c => if c = 95 then 32 else c)

/-- Python `str.capitalize()`: first character upper-cased, ALL remaining
characters lower-cased (ASCII model). -/
def pyCapitalize (s : PyStr) : PyStr :=
  match s with
  | [] => []
  | c :: rest => upperCp c :: pyLower rest

/-- The `script` dict built at lines 115-120 for a matching file. -/
def buildScript (directory_path file_name version descToken : PyStr) :
    Script :=
  { script_name := file_name
    script_full_path := pathJoin directory_path file_name
    script_type := chars "V"
    script_version := version
    script_description := pyCapitalize (replaceUnderscores descToken) }

/-- Python dict assignment `d[k] = v`: replace in place when the key
exists, else append (insertion order is preserved). -/
def dictInsert (d : List (PyStr × Script)) (k : PyStr) (v : Script) :
    List (PyStr × Script) :=
  if d.any (fun p => decide (p.1 = k)) then
    d.map (fun p => if decide (p.1 = k) then (k, v) else p)
  else d ++ [(k, v)]

/-- The loop of `get_all_scripts_recursively` (lines 103-126) over the
walked files, carrying the `all_files` dict and the `all_versions` list.
The dict entry is added BEFORE the duplicate check, exactly as in the
source; the `ValueError` is modelled as the `.error` case. -/
def processScripts (walk : List (PyStr × PyStr))
    (all_files : List (PyStr × Script)) (all_versions : List PyStr) :
    Except PyStr (List (PyStr × Script)) :=
  match walk with
  | [] => .ok all_files
  | (dir, name) :: rest =>
    match matchScriptName name with
    | none => processScripts rest all_files all_versions
    | some (ver, desc) =>
      let script := buildScript dir name ver desc
      let files2 := dictInsert all_files name script
      if decide (ver ∈ all_versions) then
        .error (dupVersionMsg ver script.script_full_path)
      else
        processScripts rest files2 (all_versions ++ [ver])

/-- `get_all_scripts_recursively` (lines 99-128): the filesystem walk is
given as the ordered list of `(directory_path, file_name)` pairs that
`os.walk` yields. -/
def get_all_scripts_recursively (walk : List (PyStr × PyStr)) :
    Except PyStr (List (PyStr × Script)) :=
  processScripts walk [] []

/-!
## SHA-224 — `hashlib.sha224(content.encode('utf-8')).hexdigest()` (line 229)

A direct implementation of FIPS 180-4 SHA-224 on byte lists, with 32-bit
words as naturals reduced mod 2^32.
-/

/-- UTF-8 encoding of one code point. -/
def utf8Char (c : ℕ) : List ℕ :=
  if c < 0x80 then [c]
  else if c < 0x800 then
    [0xC0 + c / 0x40, 0x80 + c % 0x40]
  else if c < 0x10000 then
    [0xE0 + c / 0x1000, 0x80 + c / 0x40 % 0x40, 0x80 + c % 0x40]
  else
    [0xF0 + c / 0x40000, 0x80 + c / 0x1000 % 0x40,
     0x80 + c / 0x40 % 0x40, 0x80 + c % 0x40]

/-- Python `s.encode('utf-8')`. -/
def utf8Encode (s : PyStr) : List ℕ := s.flatMap utf8Char

/-- Truncate to a 32-bit word. -/
def w32 (n : ℕ) : ℕ := n % 4294967296

/-- 32-bit right rotation. -/
def rotr32 (n x : ℕ) : ℕ := w32 (x / 2 ^ n + x % 2 ^ n * 2 ^ (32 - n))

/-- SHA-256/224 round constants (FIPS 180-4 section 4.2.2, in decimal). -/
def sha2K : List ℕ :=
  [1116352408, 1899447441, 3049323471,
   3921009573, 961987163, 1508970993,
   2453635748, 2870763221, 3624381080,
   310598401, 607225278, 1426881987,
   1925078388, 2162078206, 2614888103,
   3248222580, 3835390401, 4022224774,
   264347078, 604807628, 770255983,
   1249150122, 1555081692, 1996064986,
   2554220882, 2821834349, 2952996808,
   3210313671, 3336571891, 3584528711,
   113926993, 338241895, 666307205,
   773529912, 1294757372, 1396182291,
   1695183700, 1986661051, 2177026350,
   2456956037, 2730485921, 2820302411,
   3259730800, 3345764771, 3516065817,
   3600352804, 4094571909, 275423344,
   430227734, 506948616, 659060556,
   883997877, 958139571, 1322822218,
   1537002063, 1747873779, 1955562222,
   2024104815, 2227730452, 2361852424,
   2428436474, 2756734187, 3204031479,
   3329325298]

/-- SHA-224 initial hash values (FIPS 180-4 section 5.3.2, in decimal). -/
def sha224H0 : List ℕ :=
  [3238371032, 914150663, 812702999,
   4144912697, 4290775857, 1750603025,
   1694076839, 3204075428]

/-- Pad a message (list of bytes) per FIPS 180-4. -/
def sha2Pad (msg : List ℕ) : List ℕ :=
  let len := msg.length
  let zeros := (64 - (len + 9) % 64) % 64
  msg ++ [0x80] ++ List.replicate zeros 0 ++
    [w32 (len * 8 / 2 ^ 56) % 256, len * 8 / 2 ^ 48 % 256,
     len * 8 / 2 ^ 40 % 256, len * 8 / 2 ^ 32 % 256,
     len * 8 / 2 ^ 24 % 256, len * 8 / 2 ^ 16 % 256,
     len * 8 / 2 ^ 8 % 256, len * 8 % 256]

/-- Big-endian 32-bit words from bytes. -/
def bytesToWords : List ℕ → List ℕ
  | b0 :: b1 :: b2 :: b3 :: rest =>
    (b0 * 2 ^ 24 + b1 * 2 ^ 16 + b2 * 2 ^ 8 + b3) :: bytesToWords rest
  | _ => []

/-- Split the padded bytes into 64-byte blocks (fuel-driven for structural
recursion; fuel is the list length, which always suffices). -/
def chunks64 : ℕ → List ℕ → List (List ℕ)
  | 0, _ => []
  | _, [] => []
  | fuel + 1, l => l.take 64 :: chunks64 fuel (l.drop 64)

/-- One message-schedule extension step. -/
def scheduleStep (w : List ℕ) : List ℕ :=
  let n := w.length
  let s0 :=
    let x := w.getD (n - 15) 0
    (rotr32 7 x).xor ((rotr32 18 x).xor (x / 2 ^ 3))
  let s1 :=
    let x := w.getD (n - 2) 0
    (rotr32 17 x).xor ((rotr32 19 x).xor (x / 2 ^ 10))
  w ++ [w32 (w.getD (n - 16) 0 + s0 + w.getD (n - 7) 0 + s1)]

/-- The full 64-word message schedule from a 16-word block. -/
def schedule (w16 : List ℕ) : List ℕ := Nat.repeat scheduleStep 48 w16

/-- One compression round; the state is `[a,b,c,d,e,f,g,h]`. -/
def compressRound (st : List ℕ) (kw : ℕ × ℕ) : List ℕ :=
  match st with
  | [a, b, c, d, e, f, g, h] =>
    let S1 := (rotr32 6 e).xor ((rotr32 11 e).xor (rotr32 25 e))
    let ch := (e.land f).xor ((e.xor 0xffffffff).land g)
    let temp1 := w32 (h + S1 + ch + kw.1 + kw.2)
    let S0 := (rotr32 2 a).xor ((rotr32 13 a).xor (rotr32 22 a))
    let maj := (a.land b).xor ((a.land c).xor (b.land c))
    let temp2 := w32 (S0 + maj)
    [w32 (temp1 + temp2), a, b, c, w32 (d + temp1), e, f, g]
  | other => other

/-- Compress one 64-byte block into the running hash. -/
def compressBlock (H : List ℕ) (block : List ℕ) : List ℕ :=
  let W := schedule (bytesToWords block)
  let st := (sha2K.zip W).foldl compressRound H
  (H.zip st).map (fun p => w32 (p.1 + p.2))

/-- The eight working words after hashing an entire byte message. -/
def sha224Words (msg : List ℕ) : List ℕ :=
  let padded := sha2Pad msg
  (chunks64 padded.length padded).foldl compressBlock sha224H0

/-- The sixteen lowercase hex digits. -/
def hexDigits : PyStr := chars "0123456789abcdef"

/-- Lowercase hex, eight digits, of one 32-bit word. -/
def hex8 (x : ℕ) : PyStr :=
  [hexDigits.getD (x / 2 ^ 28 % 16) 48, hexDigits.getD (x / 2 ^ 24 % 16) 48,
   hexDigits.getD (x / 2 ^ 20 % 16) 48, hexDigits.getD (x / 2 ^ 16 % 16) 48,
   hexDigits.getD (x / 2 ^ 12 % 16) 48, hexDigits.getD (x / 2 ^ 8 % 16) 48,
   hexDigits.getD (x / 2 ^ 4 % 16) 48, hexDigits.getD (x % 16) 48]

/-- `hashlib.sha224(msg).hexdigest()`: the first seven words of the final
state, in lowercase hex. -/
def sha224hex (msg : List ℕ) : PyStr :=
  ((sha224Words msg).take 7).flatMap hex8

/-!
## Applying scripts — `apply_change_script` (lines 222-242) and the apply
loop (lines 67-82)

File reads, SQL execution and wall-clock timing are the only effects; they
are modelled by an explicit environment.  Executing a SQL text is one
opaque call that either succeeds or fails, with a duration in seconds.
-/

/-- Lines 224-226: trim the file content, then drop exactly one trailing
`';'` when present. -/
def normalizeContent (raw : PyStr) : PyStr :=
  let content := pyStrip raw
  if decide (content.getLast? = some 59) then content.dropLast else content

/-- The checksum of line 229 as a function of the raw file content:
SHA-224 of the UTF-8 encoding of the normalized content, lowercase hex. -/
def scriptChecksum (raw : PyStr) : PyStr :=
  sha224hex (utf8Encode (normalizeContent raw))

/-- The effectful surroundings of a run: file contents by full path,
whether executing a SQL text succeeds, and the wall-clock duration (in
seconds, `end - start`) of executing it. -/
structure RunEnv where
  fileContents : PyStr → PyStr
  execOk : PyStr → Bool
  execDuration : PyStr → ℚ

/-- Python `round` to an integer: round half to even.  Computed from the
reduced numerator and denominator: `f` is the floor, `rem/den` the
fractional part. -/
def pyRound (q : ℚ) : ℤ :=
  let f := Int.fdiv q.num q.den
  let rem := q.num - f * q.den
  if 2 * rem < (q.den : ℤ) then f
  else if (q.den : ℤ) < 2 * rem then f + 1
  else if f % 2 = 0 then f else f + 1

/-- The normalized body of script `s` in environment `env`. -/
def contentOf (env : RunEnv) (s : Script) : PyStr :=
  normalizeContent (env.fileContents s.script_full_path)

/-- One row of the change history table (the INSERT at line 241; the
server-assigned timestamp and the installing user are outside the model). -/
structure HistoryRecord where
  version : PyStr
  description : PyStr
  script : PyStr
  scriptType : PyStr
  checksum : PyStr
  execution_time : ℤ
  status : PyStr
deriving DecidableEq

/-- The record `apply_change_script` inserts for script `s` (lines
228-241): checksum of the normalized content, execution time 0 for an empty
body and the rounded wall-clock duration otherwise, status `'Success'`. -/
def recordOf (env : RunEnv) (s : Script) : HistoryRecord :=
  { version := s.script_version
    description := s.script_description
    script := s.script_name
    scriptType := s.script_type
    checksum := sha224hex (utf8Encode (contentOf env s))
    execution_time :=
      if decide (0 < (contentOf env s).length) then
        pyRound (env.execDuration (contentOf env s))
      else 0
    status := chars "Success" }

/-- `apply_change_script` (lines 222-242): the inserted record on success,
or an error naming the script when its SQL execution fails, paired with the
list of SQL bodies executed (empty when the normalized content is empty).
The history insert happens only after the body has executed without
error. -/
def apply_change_script (env : RunEnv) (s : Script) :
    Except PyStr HistoryRecord × List PyStr :=
  let content := contentOf env s
  if decide (0 < content.length) then
    if env.execOk content then (.ok (recordOf env s), [content])
    else (.error s.script_name, [content])
  else (.ok (recordOf env s), [])

/-- Outcome of the apply loop at lines 67-82. -/
structure RunResult where
  history : List HistoryRecord
  executed : List PyStr
  applied : ℕ
  skipped : ℕ
  completed : Bool
deriving DecidableEq

/-- The loop at lines 67-82 over the name-sorted scripts: skip when the
version key is `<=` the watermark key, otherwise apply; a failed apply
propagates immediately — no record for it, nothing after it attempted, and
the success summary at lines 81-82 (`completed`) is never reached. -/
def runScripts (env : RunEnv) (maxp : PyStr) : List Script → RunResult
  | [] => { history := [], executed := [], applied := 0, skipped := 0,
            completed := true }
  | s :: rest =>
    if pyLeB (get_alphanum_key s.script_version) (get_alphanum_key maxp) then
      let r := runScripts env maxp rest
      { r with skipped := r.skipped + 1 }
    else
      match apply_change_script env s with
      | (.ok entry, tr) =>
        let r := runScripts env maxp rest
        { history := entry :: r.history, executed := tr ++ r.executed,
          applied := r.applied + 1, skipped := r.skipped,
          completed := r.completed }
      | (.error _, tr) =>
        { history := [], executed := tr, applied := 0, skipped := 0,
          completed := false }

/-- The pure core of one whole `snowchange` run (lines 49-82): watermark
from the fetched history, discovery, name-key sort, then the apply loop.
A discovery error aborts the run before any script executes (no
`RunResult` — and hence no execution — is ever produced). -/
def snowchange_run (env : RunEnv) (walk : List (PyStr × PyStr))
    (change_history : List PyStr) : Except PyStr RunResult :=
  match get_all_scripts_recursively walk with
  | .error e => .error e
  | .ok files =>
    .ok (runScripts env (max_published_version change_history)
      (stableSort script_sort_lt (files.map Prod.snd)))

/-- C4: when a script's SQL execution fails, the failure propagates
immediately: no history record is written for that script, the records of
the scripts applied earlier in the run are exactly the history, no later
script is attempted (the executed SQL ends with the failing body), and the
run never reaches its success summary (`completed = false`). -/
theorem failed_apply_aborts_without_record (env : RunEnv) (maxp : PyStr)
    (pre post : List Script) (bad : Script)
    (hpre : ∀ s ∈ pre,
      pyLeB (get_alphanum_key s.script_version) (get_alphanum_key maxp)
          = false ∧
      (contentOf env s = [] ∨ env.execOk (contentOf env s) = true))
    (hbad1 : pyLeB (get_alphanum_key bad.script_version)
      (get_alphanum_key maxp) = false)
    (hbad2 : contentOf env bad ≠ [])
    (hbad3 : env.execOk (contentOf env bad) = false) :
    runScripts env maxp (pre ++ bad :: post) =
      { history := pre.map (recordOf env),
        executed := pre.flatMap (fun s => (apply_change_script env s).2)
          ++ [contentOf env bad],
        applied := pre.length, skipped := 0, completed := false } := by
  induction pre with
  | nil =>
    simp only [List.nil_append, runScripts]
    rw [if_neg (by simp [hbad1])]
    have ha : apply_change_script env bad =
        (.error bad.script_name, [contentOf env bad]) := by
      rw [apply_change_script]
      rw [if_pos (decide_eq_true (List.length_pos.2 hbad2)),
        if_neg (by simp [hbad3])]
    rw [ha]
    simp
  | cons s pre' ih =>
    have hs := hpre s (List.mem_cons_self s pre')
    have hrest := fun t ht => hpre t (List.mem_cons_of_mem s ht)
    simp only [List.cons_append, runScripts]
    rw [if_neg (by simp [hs.1])]
    by_cases hc : contentOf env s = []
    · have ha : apply_change_script env s = (.ok (recordOf env s), []) := by
        rw [apply_change_script]
        rw [if_neg (by simp [hc])]
      rw [ha]
      simp only [List.append_eq]
      rw [ih hrest]
      simp [ha]
    · have hx : env.execOk (contentOf env s) = true := by
        rcases hs.2 with hc' | hx
        · exact absurd hc' hc
        · exact hx
      have ha : apply_change_script env s =
          (.ok (recordOf env s), [contentOf env s]) := by
        rw [apply_change_script]
        rw [if_pos (decide_eq_true (List.length_pos.2 hc)), if_pos hx]
      rw [ha]
      simp only [List.append_eq]
      rw [ih hrest]
      simp [ha]

/-- The environment of the spec's failure example: `V1__ok.sql` succeeds,
`V2__broken.sql` fails, `V3__ok.sql` would succeed. -/
def envFail : RunEnv :=
  { fileContents := fun p =>
      if p = chars "s/V1__ok.sql" then chars "SELECT 1;"
      else if p = chars "s/V2__broken.sql" then chars "BROKEN"
      else chars "SELECT 3"
    execOk := fun q => decide (q ≠ chars "BROKEN")
    execDuration := fun _ => mkRat 0 1 }

/-- Witness: catalog `["V1__ok.sql","V2__broken.sql","V3__ok.sql"]` with
script 2 failing — the run aborts after script 2, the history contains
exactly one record (of version "1"), script 3's body is never executed, and
the run is not completed. -/
theorem failed_apply_aborts_without_record_witness :
    runScripts envFail []
        [buildScript (chars "s") (chars "V1__ok.sql") (chars "1") (chars "ok"),
         buildScript (chars "s") (chars "V2__broken.sql") (chars "2")
           (chars "broken"),
         buildScript (chars "s") (chars "V3__ok.sql") (chars "3") (chars "ok")]
      = { history :=
            [recordOf envFail (buildScript (chars "s") (chars "V1__ok.sql")
              (chars "1") (chars "ok"))],
          executed := [chars "SELECT 1", chars "BROKEN"],
          applied := 1, skipped := 0, completed := false } ∧
    (recordOf envFail (buildScript (chars "s") (chars "V1__ok.sql")
      (chars "1") (chars "ok"))).version = chars "1" := by
  constructor
  · have h := failed_apply_aborts_without_record envFail []
      [buildScript (chars "s") (chars "V1__ok.sql") (chars "1") (chars "ok")]
      [buildScript (chars "s") (chars "V3__ok.sql") (chars "3") (chars "ok")]
      (buildScript (chars "s") (chars "V2__broken.sql") (chars "2")
        (chars "broken"))
      (by decide) (by decide) (by decide) (by decide)
    exact h.trans (by decide)
  · decide

/-- C6: applying a script whose normalized content is empty executes no SQL,
records execution time 0 with status "Success", and the run continues to the
next script; a non-empty script is executed as exactly one opaque SQL unit
and its rounded wall-clock duration is recorded. -/
theorem empty_script_noop_nonempty_single_unit (env : RunEnv) (s : Script) :
    (contentOf env s = [] →
      apply_change_script env s = (.ok (recordOf env s), []) ∧
      (recordOf env s).execution_time = 0 ∧
      (recordOf env s).status = chars "Success") ∧
    (contentOf env s ≠ [] → env.execOk (contentOf env s) = true →
      apply_change_script env s = (.ok (recordOf env s), [contentOf env s]) ∧
      (recordOf env s).execution_time =
        pyRound (env.execDuration (contentOf env s)) ∧
      (recordOf env s).status = chars "Success") ∧
    (∀ maxp rest, contentOf env s = [] →
      pyLeB (get_alphanum_key s.script_version) (get_alphanum_key maxp)
          = false →
      runScripts env maxp (s :: rest) =
        { history := recordOf env s :: (runScripts env maxp rest).history,
          executed := (runScripts env maxp rest).executed,
          applied := (runScripts env maxp rest).applied + 1,
          skipped := (runScripts env maxp rest).skipped,
          completed := (runScripts env maxp rest).completed }) := by
  refine ⟨fun hc => ⟨?_, ?_, rfl⟩, fun hc hx => ⟨?_, ?_, rfl⟩, ?_⟩
  · rw [apply_change_script]
    rw [if_neg (by simp [hc])]
  · rw [recordOf]
    dsimp only
    rw [if_neg (by simp [hc])]
  · rw [apply_change_script]
    rw [if_pos (decide_eq_true (List.length_pos.2 hc)), if_pos hx]
  · rw [recordOf]
    dsimp only
    rw [if_pos (decide_eq_true (List.length_pos.2 hc))]
  · intro maxp rest hc hskip
    simp only [runScripts]
    rw [if_neg (by simp [hskip])]
    have ha : apply_change_script env s = (.ok (recordOf env s), []) := by
      rw [apply_change_script]
      rw [if_neg (by simp [hc])]
    rw [ha]
    rfl

/-- Environment for the C6 witness: one script whose file is only
whitespace and a terminator (normalizes to empty), one real script. -/
def envEmpty : RunEnv :=
  { fileContents := fun p =>
      if p = chars "s/V1__noop.sql" then chars "   ;"
      else chars "SELECT 2"
    execOk := fun _ => true
    execDuration := fun _ => mkRat 3 2 }

/-- Witness for C6 at concrete scripts: the empty-content script produces a
zero-time Success record and executes nothing; the non-empty script is
executed as one unit with `round(1.5) = 2` recorded. -/
theorem empty_script_noop_nonempty_single_unit_witness :
    (apply_change_script envEmpty
        (buildScript (chars "s") (chars "V1__noop.sql") (chars "1")
          (chars "noop"))
      = (.ok (recordOf envEmpty (buildScript (chars "s")
          (chars "V1__noop.sql") (chars "1") (chars "noop"))), []) ∧
      (recordOf envEmpty (buildScript (chars "s") (chars "V1__noop.sql")
        (chars "1") (chars "noop"))).execution_time = 0) ∧
    (apply_change_script envEmpty
        (buildScript (chars "s") (chars "V2__real.sql") (chars "2")
          (chars "real"))
      = (.ok (recordOf envEmpty (buildScript (chars "s")
          (chars "V2__real.sql") (chars "2") (chars "real"))),
         [chars "SELECT 2"]) ∧
      (recordOf envEmpty (buildScript (chars "s") (chars "V2__real.sql")
        (chars "2") (chars "real"))).execution_time = 2) := by
  constructor
  · have h := (empty_script_noop_nonempty_single_unit envEmpty
      (buildScript (chars "s") (chars "V1__noop.sql") (chars "1")
        (chars "noop"))).1 (by decide)
    exact ⟨h.1, h.2.1⟩
  · have h := (empty_script_noop_nonempty_single_unit envEmpty
      (buildScript (chars "s") (chars "V2__real.sql") (chars "2")
        (chars "real"))).2.1 (by decide) (by decide)
    refine ⟨h.1.trans (by decide), h.2.1.trans (by decide)⟩

/-- C1 counterexample: the claim's ordering clause is false.  For the
perfectly valid discovered catalog `V1.2__a.sql`, `V1__b.sql` (distinct
versions, both matching the naming pattern) with nothing applied, the plan
lists version "1.2" strictly BEFORE version "1", although the Version Key
of "1.2" strictly exceeds that of "1": the loop orders scripts by the
alphanum key of the file NAME (`'.' < '_'`), not by Version Key. -/
theorem plan_not_ascending_version_key_counterexample :
    get_all_scripts_recursively
        [(chars "s", chars "V1.2__a.sql"), (chars "s", chars "V1__b.sql")]
      = .ok [(chars "V1.2__a.sql",
              buildScript (chars "s") (chars "V1.2__a.sql") (chars "1.2")
                (chars "a")),
             (chars "V1__b.sql",
              buildScript (chars "s") (chars "V1__b.sql") (chars "1")
                (chars "b"))] ∧
    (planScripts
        [buildScript (chars "s") (chars "V1.2__a.sql") (chars "1.2")
          (chars "a"),
         buildScript (chars "s") (chars "V1__b.sql") (chars "1") (chars "b")]
        []).map Script.script_version = [chars "1.2", chars "1"] ∧
    versionCmp (chars "1.2") (chars "1") = some Ordering.gt := by
  exact ⟨by decide, by decide, by decide⟩

/-- C8 counterexample: the real program's keys do NOT always alternate
with strings at the endpoints, and key comparison can raise.  "٣" (code
point 1635, Arabic-Indic three) is accepted by `str.isdigit` and by
`int()`, so its key is the bare integer list `[3]` — an integer at even
index 0, no string endpoints — and comparing it element-wise against the
watermark key of `''` (`[""]`) raises a `TypeError` (modelled `none`) at
line 71.  The version is reachable: `V٣__x.sql` matches the discovery
pattern with version "٣". -/
theorem alphanum_key_shape_counterexample :
    get_alphanum_keyU [1635] = some [PyVal.int 3] ∧
    pyListCmp [PyVal.int 3] (get_alphanum_key []) = none ∧
    matchScriptName (86 :: 1635 :: chars "__x.sql")
      = some ([1635], chars "x") :=
  ⟨by decide, by decide, by decide⟩

theorem processScripts_error_of_version_pending :
    ∀ (walk : List (PyStr × PyStr)) (files : List (PyStr × Script))
      (vers : List PyStr),
      (∃ e ∈ walk, ∃ v d, matchScriptName e.2 = some (v, d) ∧ v ∈ vers) →
      ∃ msg, processScripts walk files vers = .error msg := by
  intro walk
  induction walk with
  | nil =>
    rintro files vers ⟨e, he, -⟩
    exact absurd he (by simp)
  | cons p rest ih =>
    rintro files vers ⟨e, he, v, d, hm, hv⟩
    obtain ⟨dir, name⟩ := p
    simp only [processScripts]
    cases hmn : matchScriptName name with
    | none =>
      apply ih
      rcases List.mem_cons.1 he with rfl | hrest
      · rw [hm] at hmn
        exact absurd hmn (by simp)
      · exact ⟨e, hrest, v, d, hm, hv⟩
    | some vd =>
      obtain ⟨ver, desc⟩ := vd
      dsimp only
      by_cases hin : ver ∈ vers
      · exact ⟨_, by rw [if_pos (decide_eq_true hin)]⟩
      · rw [if_neg (by simp [hin])]
        apply ih
        rcases List.mem_cons.1 he with rfl | hrest
        · rw [hm] at hmn
          obtain ⟨hveq, -⟩ : v = ver ∧ d = desc := by simpa using hmn
          subst hveq
          exact absurd hv hin
        · exact ⟨e, hrest, v, d, hm, List.mem_append_left _ hv⟩

theorem processScripts_duplicate_error
    (d1 n1 d2 n2 v t1 t2 : PyStr)
    (h1 : matchScriptName n1 = some (v, t1))
    (h2 : matchScriptName n2 = some (v, t2)) :
    ∀ (xs ys zs : List (PyStr × PyStr)) (files : List (PyStr × Script))
      (vers : List PyStr),
      ∃ msg, processScripts (xs ++ (d1, n1) :: ys ++ (d2, n2) :: zs)
        files vers = .error msg := by
  intro xs
  induction xs with
  | nil =>
    intro ys zs files vers
    simp only [List.nil_append, processScripts, h1]
    by_cases hin : v ∈ vers
    · exact ⟨_, by rw [if_pos (decide_eq_true hin)]⟩
    · rw [if_neg (by simp [hin])]
      apply processScripts_error_of_version_pending
      exact ⟨(d2, n2), by simp, v, t2, h2,
        List.mem_append_right _ (by simp)⟩
  | cons p rest ih =>
    intro ys zs files vers
    obtain ⟨dir, name⟩ := p
    simp only [List.cons_append, processScripts]
    cases hmn : matchScriptName name with
    | none => exact ih ys zs files vers
    | some vd =>
      obtain ⟨ver, desc⟩ := vd
      dsimp only
      by_cases hin : ver ∈ vers
      · exact ⟨_, by rw [if_pos (decide_eq_true hin)]⟩
      · rw [if_neg (by simp [hin])]
        exact ih ys zs _ _

theorem processScripts_ignores_nonmatching (d n : PyStr)
    (hn : matchScriptName n = none) :
    ∀ (pre post : List (PyStr × PyStr)) (files : List (PyStr × Script))
      (vers : List PyStr),
      processScripts (pre ++ (d, n) :: post) files vers
        = processScripts (pre ++ post) files vers := by
  intro pre
  induction pre with
  | nil =>
    intro post files vers
    simp only [List.nil_append, processScripts, hn]
  | cons p rest ih =>
    intro post files vers
    obtain ⟨dir, name⟩ := p
    simp only [List.cons_append, processScripts]
    cases hmn : matchScriptName name with
    | none => exact ih post files vers
    | some vd =>
      obtain ⟨ver, desc⟩ := vd
      dsimp only
      by_cases hin : ver ∈ vers
      · rw [if_pos (decide_eq_true hin), if_pos (decide_eq_true hin)]
      · rw [if_neg (by simp [hin]), if_neg (by simp [hin])]
        exact ih post _ _

/-- C3: if the walk contains two files whose extracted version strings are
equal, discovery raises an error — and a whole run over such a walk aborts
(errors) before any script is executed, since `snowchange_run` only reaches
the apply loop on a successful discovery.  Files that do not match the
change-script pattern are silently ignored: removing such a file from the
walk never changes the discovery result, so they cannot cause an error.  On
the spec's example the error message identifies version "1". -/
theorem duplicate_version_aborts_discovery :
    (get_all_scripts_recursively
        [(chars "scripts", chars "V1__a.sql"),
         (chars "scripts", chars "V2__b.sql"),
         (chars "scripts", chars "notes.txt"),
         (chars "scripts", chars "V1__c.sql")]
      = .error (chars
        "The script version 1 exists more than once (second instance scripts/V1__c.sql)")) ∧
    (∀ (xs ys zs : List (PyStr × PyStr)) (d1 n1 d2 n2 v t1 t2 : PyStr),
      matchScriptName n1 = some (v, t1) → matchScriptName n2 = some (v, t2) →
      ∃ msg, get_all_scripts_recursively
        (xs ++ (d1, n1) :: ys ++ (d2, n2) :: zs) = .error msg) ∧
    (∀ (env : RunEnv) (history : List PyStr) (xs ys zs : List (PyStr × PyStr))
      (d1 n1 d2 n2 v t1 t2 : PyStr),
      matchScriptName n1 = some (v, t1) → matchScriptName n2 = some (v, t2) →
      ∃ msg, snowchange_run env (xs ++ (d1, n1) :: ys ++ (d2, n2) :: zs)
        history = .error msg) ∧
    (∀ (pre post : List (PyStr × PyStr)) (d n : PyStr),
      matchScriptName n = none →
      get_all_scripts_recursively (pre ++ (d, n) :: post)
        = get_all_scripts_recursively (pre ++ post)) := by
  refine ⟨by decide,
    fun xs ys zs d1 n1 d2 n2 v t1 t2 h1 h2 =>
      processScripts_duplicate_error d1 n1 d2 n2 v t1 t2 h1 h2 xs ys zs [] [],
    fun env history xs ys zs d1 n1 d2 n2 v t1 t2 h1 h2 => ?_,
    fun pre post d n hn =>
      processScripts_ignores_nonmatching d n hn pre post [] []⟩
  obtain ⟨msg, hmsg⟩ :=
    processScripts_duplicate_error d1 n1 d2 n2 v t1 t2 h1 h2 xs ys zs [] []
  refine ⟨msg, ?_⟩
  rw [snowchange_run]
  rw [show get_all_scripts_recursively (xs ++ (d1, n1) :: ys ++ (d2, n2) :: zs)
    = .error msg from hmsg]

/-- Witness for the discovery-error theorem at concrete files: the scripts
`V1__a.sql` and `V1__b.sql` share the extracted version "1", so discovery
errors; a non-matching `README.md` in the walk is silently ignored. -/
theorem duplicate_version_aborts_discovery_witness :
    (∃ msg, get_all_scripts_recursively
      [(chars "d", chars "V1__a.sql"), (chars "d", chars "V1__b.sql")]
      = .error msg) ∧
    get_all_scripts_recursively
        [(chars "d", chars "V1__a.sql"), (chars "d", chars "README.md"),
         (chars "d", chars "V2__b.sql")]
      = get_all_scripts_recursively
        [(chars "d", chars "V1__a.sql"), (chars "d", chars "V2__b.sql")] :=
  ⟨duplicate_version_aborts_discovery.2.1 [] [] []
      (chars "d") (chars "V1__a.sql") (chars "d") (chars "V1__b.sql")
      (chars "1") (chars "a") (chars "b") (by decide) (by decide),
   duplicate_version_aborts_discovery.2.2.2
      [(chars "d", chars "V1__a.sql")] [(chars "d", chars "V2__b.sql")]
      (chars "d") (chars "README.md") (by decide)⟩

/-!
## Checksums (claim C5)
-/

theorem hexDigits_getD_mem (n : ℕ) : hexDigits.getD n 48 ∈ hexDigits := by
  match n with
  | 0 | 1 | 2 | 3 | 4 | 5 | 6 | 7 | 8 | 9 | 10 | 11 | 12 | 13 | 14 | 15 =>
    decide
  | m + 16 =>
    have h : hexDigits.getD (m + 16) 48 = 48 := by
      simp [hexDigits, chars, List.getD_cons_succ, List.getD_nil]
    rw [h]
    decide

theorem hexDigits_getElem?_mem (n : ℕ) : hexDigits[n]?.getD 48 ∈ hexDigits := by
  have h := hexDigits_getD_mem n
  rwa [List.getD_eq_getElem?_getD] at h

theorem hex8_all_hex (x : ℕ) :
    (hex8 x).all (fun c => decide (c ∈ hexDigits)) = true := by
  simp [hex8, hexDigits_getElem?_mem]

theorem sha224hex_all_hex (msg : List ℕ) :
    (sha224hex msg).all (fun c => decide (c ∈ hexDigits)) = true := by
  rw [List.all_eq_true]
  intro c hc
  rw [sha224hex] at hc
  obtain ⟨w, hw, hcw⟩ := List.mem_flatMap.1 hc
  have := List.all_eq_true.1 (hex8_all_hex w) c hcw
  exact this

/-- C5: the checksum is a deterministic function of the script body — trim,
then strip exactly one trailing ';', then SHA-224 of the UTF-8 bytes,
rendered as lowercase hex.  `"SELECT 1;"` and `"SELECT 1"` normalize (and
hash) identically; `"SELECT 1;;"` normalizes to `"SELECT 1;"` and hashes
differently; the digest of `"SELECT 1"` is the true SHA-224 value; every
digest consists of lowercase hex digits only. -/
theorem checksum_normalization_and_hash :
    (∀ raw : PyStr, scriptChecksum raw
      = sha224hex (utf8Encode (normalizeContent raw))) ∧
    normalizeContent (chars "SELECT 1;")
      = normalizeContent (chars "SELECT 1") ∧
    scriptChecksum (chars "SELECT 1;") = scriptChecksum (chars "SELECT 1") ∧
    scriptChecksum (chars "SELECT 1;")
      = chars "cf10d24b9fdfe97deed2616e91ce08dc4491bbc0d556a1f518647de5" ∧
    normalizeContent (chars "SELECT 1;;") = chars "SELECT 1;" ∧
    scriptChecksum (chars "SELECT 1;;") ≠ scriptChecksum (chars "SELECT 1;") ∧
    (∀ raw : PyStr,
      (scriptChecksum raw).all (fun c => decide (c ∈ hexDigits)) = true) :=
  ⟨fun _ => rfl, by decide, by decide, by decide, by decide, by decide,
   fun raw => sha224hex_all_hex _⟩

/-!
## Descriptions (claim C7)
-/

/-- The description transform exactly as the claim words it: every
underscore replaced by a space and the first letter capitalized — and
nothing else changed.  (Stated from the spec for comparison with the
code's `pyCapitalize`, which also lowercases the remaining characters.) -/
def specDescription (tok : PyStr) : PyStr :=
  match replaceUnderscores tok with
  | [] => []
  | c :: rest => upperCp c :: rest

/-- C7 counterexample: Python `str.capitalize()` lowercases everything
after the first character, so for `V1__Add_COLUMN.sql` the stored
description is `"Add column"`, not the claim's `"Add COLUMN"` (underscore
replacement plus first-letter capitalization only). -/
theorem description_not_only_capitalized_counterexample :
    get_all_scripts_recursively [(chars "d", chars "V1__Add_COLUMN.sql")]
      = .ok [(chars "V1__Add_COLUMN.sql",
          buildScript (chars "d") (chars "V1__Add_COLUMN.sql") (chars "1")
            (chars "Add_COLUMN"))] ∧
    (buildScript (chars "d") (chars "V1__Add_COLUMN.sql") (chars "1")
      (chars "Add_COLUMN")).script_description = chars "Add column" ∧
    specDescription (chars "Add_COLUMN") = chars "Add COLUMN" ∧
    chars "Add column" ≠ chars "Add COLUMN" :=
  ⟨by decide, by decide, by decide, by decide⟩

/-- C7 (amended): for every valid change-script filename, the stored
description is Python `capitalize` of the underscore-replaced description
token: underscores become spaces, the first character is upper-cased, and
every later character is lower-cased. -/
theorem description_is_capitalized_token (dir name v tok : PyStr)
    (h : matchScriptName name = some (v, tok)) :
    get_all_scripts_recursively [(dir, name)]
      = .ok [(name, buildScript dir name v tok)] ∧
    (buildScript dir name v tok).script_description
      = pyCapitalize (replaceUnderscores tok) := by
  refine ⟨?_, rfl⟩
  rw [get_all_scripts_recursively, processScripts, h]
  dsimp only
  rw [if_neg (by simp)]
  rfl

/-- Witness for the amended description theorem at a concrete file. -/
theorem description_is_capitalized_token_witness :
    get_all_scripts_recursively [(chars "d", chars "V1__hello_world.sql")]
      = .ok [(chars "V1__hello_world.sql",
          buildScript (chars "d") (chars "V1__hello_world.sql") (chars "1")
            (chars "hello_world"))] ∧
    (buildScript (chars "d") (chars "V1__hello_world.sql") (chars "1")
      (chars "hello_world")).script_description = chars "Hello world" :=
  ⟨(description_is_capitalized_token (chars "d") (chars "V1__hello_world.sql")
      (chars "1") (chars "hello_world") (by decide)).1,
   ((description_is_capitalized_token (chars "d") (chars "V1__hello_world.sql")
      (chars "1") (chars "hello_world") (by decide)).2).trans (by decide)⟩

/-!
## Greedy version matching (claim C9)
-/

theorem splitLastSep_append (A B : PyStr) (hBne : B ≠ [])
    (hBhead : B.head? ≠ some 95) (hBsep : splitLastSep B = none) :
    splitLastSep (A ++ 95 :: 95 :: B) = some (A, B) := by
  induction A with
  | nil =>
    have hinner : splitLastSep (95 :: B) = none := by
      rw [splitLastSep, hBsep]
      cases B with
      | nil => rfl
      | cons d ds =>
        cases ds with
        | nil => rfl
        | cons e es =>
          rw [splitLastSepHead]
          dsimp only
          rw [if_neg]
          rintro ⟨-, hd⟩
          exact hBhead (by rw [List.head?_cons, hd])
    rw [List.nil_append, splitLastSep, hinner]
    cases B with
    | nil => exact absurd rfl hBne
    | cons d ds =>
      rw [splitLastSepHead]
      dsimp only
      rw [if_pos ⟨rfl, rfl⟩]
  | cons a A' ih =>
    rw [List.cons_append, splitLastSep, ih]

theorem dropWhile_eq_self_of_head {p : ℕ → Bool} {l : PyStr}
    (h : ∀ c, l.head? = some c → p c = false) : l.dropWhile p = l := by
  cases l with
  | nil => rfl
  | cons c cs =>
    rw [List.dropWhile_cons, h c rfl]
    rfl

theorem pyStrip_eq_self {s : PyStr}
    (h1 : ∀ c, s.head? = some c → isSpaceCp c = false)
    (h2 : ∀ c, s.getLast? = some c → isSpaceCp c = false) :
    pyStrip s = s := by
  have hrev : ∀ c, s.reverse.head? = some c → isSpaceCp c = false := by
    intro c hc
    exact h2 c (by rwa [List.head?_reverse] at hc)
  rw [pyStrip, dropWhile_eq_self_of_head h1, dropWhile_eq_self_of_head hrev,
    List.reverse_reverse]

theorem matchScriptName_append (A B : PyStr)
    (hA : A ≠ []) (hAnl : ∀ c ∈ A, ¬ c = 10) (hBnl : ∀ c ∈ B, ¬ c = 10)
    (hBne : B ≠ []) (hBhead : B.head? ≠ some 95)
    (hBsep : splitLastSep B = none) :
    matchScriptName (86 :: (A ++ 95 :: 95 :: (B ++ chars ".sql")))
      = some (A, B) := by
  have hshape : 86 :: (A ++ 95 :: 95 :: (B ++ chars ".sql"))
      = 86 :: ((A ++ 95 :: 95 :: B) ++ chars ".sql") := by
    simp [List.append_assoc]
  have hstrip : pyStrip (86 :: (A ++ 95 :: 95 :: (B ++ chars ".sql")))
      = 86 :: (A ++ 95 :: 95 :: (B ++ chars ".sql")) := by
    apply pyStrip_eq_self
    · intro c hc
      rw [List.head?_cons, Option.some.injEq] at hc
      subst hc
      rfl
    · intro c hc
      rw [hshape] at hc
      rw [show (86 : ℕ) :: ((A ++ 95 :: 95 :: B) ++ chars ".sql")
          = (86 :: (A ++ 95 :: 95 :: B)) ++ chars ".sql" from rfl] at hc
      rw [List.getLast?_append_of_ne_nil _ (by decide)] at hc
      have : c = 108 := by
        rw [show (chars ".sql").getLast? = some 108 from rfl,
          Option.some.injEq] at hc
        exact hc.symm
      subst this
      rfl
  rw [matchScriptName, hstrip]
  dsimp only
  rw [show A ++ 95 :: 95 :: (B ++ chars ".sql")
    = (A ++ 95 :: 95 :: B) ++ chars ".sql" by simp [List.append_assoc]]
  have hlen : ((A ++ 95 :: 95 :: B) ++ chars ".sql").length - 4
      = (A ++ 95 :: 95 :: B).length := by
    have h4 : (chars ".sql").length = 4 := rfl
    simp only [List.length_append, List.length_cons, h4]
    omega
  rw [hlen, List.drop_left, List.take_left]
  rw [if_pos ⟨rfl, rfl⟩]
  have hall : ((A ++ 95 :: 95 :: B).all (fun ch => decide (ch ≠ 10)))
      = true := by
    rw [List.all_eq_true]
    intro c hc
    rcases List.mem_append.1 hc with hca | hcb
    · exact decide_eq_true (hAnl c hca)
    · rcases List.mem_cons.1 hcb with rfl | hcb2
      · decide
      · rcases List.mem_cons.1 hcb2 with rfl | hcb3
        · decide
        · exact decide_eq_true (hBnl c hcb3)
  rw [if_pos hall, splitLastSep_append A B hBne hBhead hBsep]
  dsimp only
  rw [if_neg (by simpa using hA)]

/-- C9: with more than one `__` in the stem, the version token is matched
greedily up to the LAST `__` that leaves a non-empty description: for any
stem `A ++ "__" ++ B` where `A` is non-empty, `B` is non-empty, does not
start with '_' and admits no further split point, the match yields version
`A` and description token `B`; in particular `V1__a__b.sql` yields version
"1__a" and description token "b" — not version "1". -/
theorem version_matched_greedily (A B : PyStr)
    (hA : A ≠ []) (hAnl : ∀ c ∈ A, ¬ c = 10) (hBnl : ∀ c ∈ B, ¬ c = 10)
    (hBne : B ≠ []) (hBhead : B.head? ≠ some 95)
    (hBsep : splitLastSep B = none) :
    matchScriptName (86 :: (A ++ 95 :: 95 :: (B ++ chars ".sql")))
      = some (A, B) ∧
    matchScriptName (chars "V1__a__b.sql")
      = some (chars "1__a", chars "b") ∧
    matchScriptName (chars "V1__a__b.sql") ≠ some (chars "1", chars "a__b") :=
  ⟨matchScriptName_append A B hA hAnl hBnl hBne hBhead hBsep,
   by decide, by decide⟩

/-- Witness: the greedy-match theorem applied at `A = "1__a"`, `B = "b"`
gives exactly the match of `V1__a__b.sql`. -/
theorem version_matched_greedily_witness :
    matchScriptName
        (86 :: (chars "1__a" ++ 95 :: 95 :: (chars "b" ++ chars ".sql")))
      = some (chars "1__a", chars "b") :=
  (version_matched_greedily (chars "1__a") (chars "b") (by decide) (by decide)
    (by decide) (by decide) (by decide) (by decide)).1

/-!
## Change history table details — `get_change_history_table_details`
(lines 169-192, claim C10)
-/

/-- Global defaults (lines 12-14). -/
def metadataDatabaseName : PyStr := chars "METADATA"

def metadataSchemaName : PyStr := chars "SNOWCHANGE"

def metadataTableName : PyStr := chars "CHANGE_HISTORY"

/-- Python `s.split('.')`: split on every `'.'`, preserving empty parts
(so `''.split('.') == ['']`). -/
def pySplitDot : PyStr → List PyStr
  | [] => [[]]
  | c :: cs =>
    match pySplitDot cs with
    | [] => [[]]
    | p :: ps => if c = 46 then [] :: p :: ps else (c :: p) :: ps

/-- The resolved change-history-table location. -/
structure TableDetails where
  database_name : PyStr
  schema_name : PyStr
  table_name : PyStr
deriving DecidableEq

/-- `get_change_history_table_details` (lines 169-192): global defaults
upper-cased, then a stripped 1-, 2- or 3-part dotted override replaces the
trailing parts (each upper-cased); more parts raise a `ValueError`. -/
def get_change_history_table_details (override : Option PyStr) :
    Except PyStr TableDetails :=
  let dflt : TableDetails :=
    { database_name := pyUpper metadataDatabaseName
      schema_name := pyUpper metadataSchemaName
      table_name := pyUpper metadataTableName }
  match override with
  | none => .ok dflt
  | some s =>
    match pySplitDot (pyStrip s) with
    | [p] => .ok { dflt with table_name := pyUpper p }
    | [p, q] => .ok { dflt with schema_name := pyUpper p,
                                table_name := pyUpper q }
    | [p, q, r] => .ok { database_name := pyUpper p,
                         schema_name := pyUpper q,
                         table_name := pyUpper r }
    | _ => .error (chars "Invalid change history table name: " ++ s)

theorem upperCp_idem (c : ℕ) : upperCp (upperCp c) = upperCp c := by
  by_cases h : 97 ≤ c ∧ c ≤ 122
  · have h1 : upperCp c = c - 32 := by rw [upperCp, if_pos h]
    rw [h1, upperCp, if_neg (by omega)]
  · have h1 : upperCp c = c := by rw [upperCp, if_neg h]
    rw [h1, h1]

theorem pyUpper_idem (s : PyStr) : pyUpper (pyUpper s) = pyUpper s := by
  simp only [pyUpper, List.map_map]
  exact List.map_congr_left (fun c _ => upperCp_idem c)

/-- C10: the resolved location always has all three parts upper-cased —
for the built-in defaults and for every 1-, 2- or 3-part override
regardless of the input's letter case (each resolved part is a fixed point
of `upper`); parts not supplied keep their defaults; an override splitting
into more than three dot-separated parts raises a configuration error. -/
theorem change_history_table_resolution :
    (get_change_history_table_details none
      = .ok ⟨chars "METADATA", chars "SNOWCHANGE", chars "CHANGE_HISTORY"⟩) ∧
    (∀ s p, pySplitDot (pyStrip s) = [p] →
      get_change_history_table_details (some s)
        = .ok ⟨chars "METADATA", chars "SNOWCHANGE", pyUpper p⟩) ∧
    (∀ s p q, pySplitDot (pyStrip s) = [p, q] →
      get_change_history_table_details (some s)
        = .ok ⟨chars "METADATA", pyUpper p, pyUpper q⟩) ∧
    (∀ s p q r, pySplitDot (pyStrip s) = [p, q, r] →
      get_change_history_table_details (some s)
        = .ok ⟨pyUpper p, pyUpper q, pyUpper r⟩) ∧
    (∀ s, 3 < (pySplitDot (pyStrip s)).length →
      get_change_history_table_details (some s)
        = .error (chars "Invalid change history table name: " ++ s)) ∧
    (∀ o d, get_change_history_table_details o = .ok d →
      d.database_name = pyUpper d.database_name ∧
      d.schema_name = pyUpper d.schema_name ∧
      d.table_name = pyUpper d.table_name) := by
  refine ⟨by decide, ?_, ?_, ?_, ?_, ?_⟩
  · intro s p h
    rw [get_change_history_table_details]
    dsimp only
    rw [h]
    rfl
  · intro s p q h
    rw [get_change_history_table_details]
    dsimp only
    rw [h]
    rfl
  · intro s p q r h
    rw [get_change_history_table_details]
    dsimp only
    rw [h]
  · intro s hlen
    rw [get_change_history_table_details]
    dsimp only
    cases h : pySplitDot (pyStrip s) with
    | nil => rw [h] at hlen
    | cons p ps =>
      cases ps with
      | nil => rw [h] at hlen; simp at hlen
      | cons q qs =>
        cases qs with
        | nil => rw [h] at hlen; simp at hlen
        | cons r rs =>
          cases rs with
          | nil => rw [h] at hlen; simp at hlen
          | cons x xs => rfl
  · intro o d hd
    obtain ⟨db, sc, tb⟩ := d
    have key : ∀ a b c : PyStr,
        (Except.ok (⟨pyUpper a, pyUpper b, pyUpper c⟩ : TableDetails)
            : Except PyStr TableDetails)
          = Except.ok (⟨db, sc, tb⟩ : TableDetails) →
        db = pyUpper db ∧ sc = pyUpper sc ∧ tb = pyUpper tb := by
      intro a b c hh
      injection hh with h2
      injection h2 with ha hb hc
      subst ha
      subst hb
      subst hc
      exact ⟨(pyUpper_idem _).symm, (pyUpper_idem _).symm,
        (pyUpper_idem _).symm⟩
    match o with
    | none =>
      rw [get_change_history_table_details] at hd
      exact key _ _ _ hd
    | some s =>
      rw [get_change_history_table_details] at hd
      dsimp only at hd
      cases h : pySplitDot (pyStrip s) with
      | nil =>
        rw [h] at hd
        exact absurd hd (by simp)
      | cons p ps =>
        cases ps with
        | nil =>
          rw [h] at hd
          exact key _ _ _ hd
        | cons q qs =>
          cases qs with
          | nil =>
            rw [h] at hd
            exact key _ _ _ hd
          | cons r rs =>
            cases rs with
            | nil =>
              rw [h] at hd
              exact key _ _ _ hd
            | cons x xs =>
              rw [h] at hd
              exact absurd hd (by simp)

/-- Witness: a lowercase three-part override resolves fully upper-cased; a
four-part override is rejected; a one-part override keeps both defaults. -/
theorem change_history_table_resolution_witness :
    get_change_history_table_details (some (chars "db.sch.tbl"))
      = .ok ⟨chars "DB", chars "SCH", chars "TBL"⟩ ∧
    get_change_history_table_details (some (chars "a.b.c.d"))
      = .error (chars "Invalid change history table name: " ++ chars "a.b.c.d") ∧
    get_change_history_table_details (some (chars "events"))
      = .ok ⟨chars "METADATA", chars "SNOWCHANGE", chars "EVENTS"⟩ :=
  ⟨(change_history_table_resolution.2.2.2.1 (chars "db.sch.tbl") (chars "db")
      (chars "sch") (chars "tbl") (by decide)).trans (by decide),
   change_history_table_resolution.2.2.2.2.1 (chars "a.b.c.d") (by decide),
   (change_history_table_resolution.2.1 (chars "events") (chars "events")
      (by decide)).trans (by decide)⟩
